import Mathlib

/-!
Verification development for the MS-Teams recording downloader / Whisper
transcriber script (src/MCTeams_and_Whisper.py).

The script is shallowly embedded over `List Char` (Python strings are modelled
as lists of characters; only ASCII-relevant behaviour of `str.lower`, `str.strip`
and friends is modelled, which is faithful for all ASCII inputs).  The relevant
pieces of the Python standard library that the script calls are modelled from
their CPython 3.12 sources:

  * `urllib.parse.urlsplit` / `urlunsplit` (used by `trim_after_altmanifest`);
    the model reproduces the WHATWG control-character stripping, the scheme /
    netloc / fragment / query splitting and the scheme lowercasing.  The
    `ValueError` raised by CPython for malformed bracketed IPv6 netlocs and the
    NFKC netloc check are not modelled (those inputs raise instead of
    returning; every claim below quantifies over inputs on which the script
    returns a value).
  * `str.find`, `str.rfind`, `str.rstrip`, `str.replace`, `str.split`,
    `os.path.join` (POSIX flavour), `subprocess.run(check=True)`.

Side effects such as `print` and `os.makedirs` are irrelevant to the claims
and are not modelled; subprocess invocations are recorded as trace events and
their exit codes are supplied by an `Env` record.
-/

/-- ASCII lowercasing of one character, the fragment of Python `str.lower`
relevant here (Python lowercases full Unicode; on ASCII both agree). -/
def asciiLower (c : Char) : Char :=
  if 65 ≤ c.toNat ∧ c.toNat ≤ 90 then Char.ofNat (c.toNat + 32) else c

/-- Python `s.lower()` on an ASCII string. -/
def lowerAscii (l : List Char) : List Char := l.map asciiLower

/-- The characters stripped by Python `str.strip()` with no argument
(ASCII whitespace; Python also strips some Unicode spaces). -/
def isPySpace (c : Char) : Bool :=
  c == ' ' || c == '\t' || c == '\n' || c == '\x0d' || c == '\x0b' || c == '\x0c'

/-- Python `s.strip()` on an ASCII string. -/
def pyStrip (l : List Char) : List Char :=
  ((l.dropWhile isPySpace).reverse.dropWhile isPySpace).reverse

/-- Python `c.isascii() and c.isalpha()`. -/
def isAsciiAlpha (c : Char) : Bool :=
  (65 ≤ c.toNat && c.toNat ≤ 90) || (97 ≤ c.toNat && c.toNat ≤ 122)

/-- Membership in CPython `urllib.parse.scheme_chars`
(ASCII letters, digits, `+`, `-`, `.`). -/
def isSchemeChar (c : Char) : Bool :=
  (65 ≤ c.toNat && c.toNat ≤ 90) || (97 ≤ c.toNat && c.toNat ≤ 122) ||
  (48 ≤ c.toNat && c.toNat ≤ 57) || c.toNat == 43 || c.toNat == 45 || c.toNat == 46

/-- The characters stripped by the WHATWG lstrip (code points up to 0x20). -/
def isC0Space (c : Char) : Bool := decide (c.toNat ≤ 32)

/-- The complement of `_UNSAFE_URL_BYTES_TO_REMOVE` (tab, CR, LF). -/
def notTabCrLf (c : Char) : Bool := !(c == '\t' || c == '\x0d' || c == '\n')

/-- The entry-stripping done at the top of CPython `urlsplit`:
`url.lstrip(_WHATWG_C0_CONTROL_OR_SPACE)` followed by removing every
occurrence of tab, CR and LF (`_UNSAFE_URL_BYTES_TO_REMOVE`). -/
def preprocess (l : List Char) : List Char :=
  (l.dropWhile isC0Space).filter notTabCrLf

/-- Predicate for scanning up to the first colon. -/
def notColon (c : Char) : Bool := !(c == ':')

/-- The scheme-detection step of CPython `urlsplit`: at the first `:` (if at a
positive index, with an ASCII-alphabetic first character and only scheme
characters before it) split off the lowercased scheme. -/
def splitScheme (l : List Char) : List Char × List Char :=
  match l.dropWhile notColon with
  | [] => ([], l)
  | _ :: r =>
    match l.takeWhile notColon with
    | [] => ([], l)
    | c :: cs =>
      if isAsciiAlpha c && cs.all isSchemeChar then (lowerAscii (c :: cs), r) else ([], l)

/-- Characters that may appear inside a netloc (CPython `_splitnetloc` stops at
the first of `/`, `?`, `#`). -/
def netlocOk (c : Char) : Bool := !(c == '/' || c == '?' || c == '#')

/-- The netloc step of CPython `urlsplit`: when the remainder begins with `//`,
the netloc extends to the first `/`, `?` or `#` after it. -/
def splitNetloc (l : List Char) : List Char × List Char :=
  if l.take 2 = ['/', '/'] then
    ((l.drop 2).takeWhile netlocOk, (l.drop 2).dropWhile netlocOk)
  else ([], l)

/-- The fragment step of CPython `urlsplit`: `url.split(char, 1)` at the first
`#`, the fragment staying empty when there is none. -/
def notHash (c : Char) : Bool := !(c == '#')

def splitFragment (l : List Char) : List Char × List Char :=
  (l.takeWhile notHash, (l.dropWhile notHash).tail)

/-- The query step of CPython `urlsplit`: split at the first `?`. -/
def notQuest (c : Char) : Bool := !(c == '?')

def splitQuery (l : List Char) : List Char × List Char :=
  (l.takeWhile notQuest, (l.dropWhile notQuest).tail)

/-- The five components produced by `urllib.parse.urlsplit`. -/
structure SplitResult where
  scheme : List Char
  netloc : List Char
  path : List Char
  query : List Char
  fragment : List Char
  deriving Repr, DecidableEq

/-- Model of CPython 3.12 `urllib.parse.urlsplit` (with `allow_fragments=True`,
default scheme, and the malformed-netloc `ValueError` paths not modelled). -/
def urlsplit (url : List Char) : SplitResult :=
  let u0 := preprocess url
  let s1 := splitScheme u0
  let s2 := splitNetloc s1.2
  let s3 := splitFragment s2.2
  let s4 := splitQuery s3.1
  ⟨s1.1, s2.1, s4.1, s4.2, s3.2⟩

/-- CPython `urllib.parse.uses_netloc` (3.11.6); the leading empty entry is
irrelevant below because `urlunsplit` tests it only for a non-empty scheme. -/
def usesNetloc : List (List Char) :=
  ["ftp".data, "http".data, "gopher".data, "nntp".data, "telnet".data,
   "imap".data, "wais".data, "file".data, "mms".data, "https".data,
   "shttp".data, "snews".data, "prospero".data, "rtsp".data, "rtsps".data,
   "rtspu".data, "rsync".data, "svn".data, "svn+ssh".data, "sftp".data,
   "nfs".data, "git".data, "git+ssh".data, "ws".data, "wss".data]

/-- Model of CPython 3.11.5+ `urllib.parse.urlunsplit`: the `//` prefix is
emitted when the netloc is non-empty, or when the scheme is a netloc-using
scheme and the path does not already begin with `//`. -/
def urlunsplit (r : SplitResult) : List Char :=
  let u1 :=
    if r.netloc ≠ [] ∨ (r.scheme ≠ [] ∧ r.scheme ∈ usesNetloc ∧ r.path.take 2 ≠ ['/', '/']) then
      '/' :: '/' :: r.netloc ++
        (if r.path ≠ [] ∧ r.path.take 1 ≠ ['/'] then '/' :: r.path else r.path)
    else r.path
  let u2 := if r.scheme ≠ [] then r.scheme ++ ':' :: u1 else u1
  let u3 := if r.query ≠ [] then u2 ++ '?' :: r.query else u2
  if r.fragment ≠ [] then u3 ++ '#' :: r.fragment else u3

/-- Python `hay.find(pat)` (index of the first occurrence), as an `Option`. -/
def findSub (pat : List Char) : List Char → Option Nat
  | [] => if pat = [] then some 0 else none
  | c :: rest =>
    if pat.isPrefixOf (c :: rest) then some 0
    else
      match findSub pat rest with
      | none => none
      | some i => some (i + 1)

/-- Python `hay.rfind(chr(38))` restricted to `hay` (index of the last `&`). -/
def rfindAmp : List Char → Option Nat
  | [] => none
  | c :: rest =>
    match rfindAmp rest with
    | some i => some (i + 1)
    | none => if c = '&' then some 0 else none

/-- Python `s.rstrip(chr(38))`: drop every trailing `&`. -/
def rstripAmp (l : List Char) : List Char :=
  (l.reverse.dropWhile fun c => c == '&').reverse

/-- The query-parameter name searched for by the script. -/
def altmanifest : List Char := "altmanifest".data

/-- Model of `trim_after_altmanifest` (src/MCTeams_and_Whisper.py lines
34-57): on a URL whose query contains the case-insensitive substring
`altmanifest`, truncate the query at the last `&` before the first match
(dropping the query when there is none) and reassemble the URL; otherwise
return the URL unchanged. -/
def trim_after_altmanifest (url : List Char) : List Char :=
  let parts := urlsplit url
  let q := parts.query
  if q = [] then url
  else
    match findSub altmanifest (lowerAscii q) with
    | none => url
    | some pos =>
      let newQuery :=
        match rfindAmp (q.take pos) with
        | none => []
        | some amp => rstripAmp (q.take amp)
      urlunsplit ⟨parts.scheme, parts.netloc, parts.path, newQuery, parts.fragment⟩

/-- Python `q.split(chr(38))`: split a query string at every `&`. -/
def splitOnAmp : List Char → List (List Char)
  | [] => [[]]
  | c :: rest =>
    if c = '&' then [] :: splitOnAmp rest
    else
      match splitOnAmp rest with
      | [] => [[c]]
      | s :: ss => (c :: s) :: ss

/-- The non-empty `&`-separated segments of a query string (its query
parameters, in order). -/
def queryParams (q : List Char) : List (List Char) :=
  (splitOnAmp q).filter fun s => !s.isEmpty

/-- Result of the `try: import torch; torch.cuda.is_available()` probe in
`resolve_device`: either the library call succeeds and reports availability,
or the import / call raises and the `except Exception` branch runs. -/
inductive TorchProbe where
  | ok (avail : Bool)
  | exc
  deriving Repr, DecidableEq

/-- Model of `resolve_device` (src/MCTeams_and_Whisper.py lines 121-137):
for a requested `cuda` device, consult the PyTorch probe; only when that
raises, fall back to looking for `nvidia-smi` on the PATH. -/
def resolve_device (device : List Char) (torch : TorchProbe) (nvidiaSmi : Bool) : List Char :=
  if device = "cuda".data then
    match torch with
    | .ok true => "cuda".data
    | .ok false => "cpu".data
    | .exc => if nvidiaSmi then "cuda".data else "cpu".data
  else "cpu".data

/-- Python `s.replace(pat, repl)` (all occurrences, scanning left to right),
via a fuel parameter to keep the recursion structural; `replaceAllFuel` is
always called with fuel at least the length of the subject string. -/
def replaceAllFuel (pat repl : List Char) : Nat → List Char → List Char
  | 0, s => s
  | _ + 1, [] => []
  | fuel + 1, c :: rest =>
    if pat ≠ [] ∧ pat.isPrefixOf (c :: rest) then
      repl ++ replaceAllFuel pat repl fuel (rest.drop (pat.length - 1))
    else c :: replaceAllFuel pat repl fuel rest

/-- Python `s.replace(pat, repl)` for non-empty `pat`. -/
def replaceAll (pat repl s : List Char) : List Char := replaceAllFuel pat repl s.length s

/-- Python `s.endswith(pat)`. -/
def endsWithList (pat s : List Char) : Bool := pat.isSuffixOf s

/-- Model of `prompt_mode` (src/MCTeams_and_Whisper.py lines 59-72); `none`
models an `EOFError` from `input()`, which the code turns into the empty
answer.  Only the exact stripped answer `1` selects Download Only. -/
def prompt_mode (inp : Option (List Char)) : List Char :=
  let choice := pyStrip (inp.getD [])
  if choice = "1".data then "download".data else "transcribe".data

/-- The configuration assembled by `prompt_all_inputs`.  The output directory
is kept as entered (after defaulting); the `os.path.abspath(os.path.expanduser ...)`
normalisation is filesystem-state dependent and no claim depends on it. -/
structure Config where
  outdirRaw : List Char
  url : List Char
  language : List Char
  device : List Char
  model : List Char
  deriving Repr, DecidableEq

/-- The default model name `medium.en` of `prompt_all_inputs`. -/
def default_model : List Char := "medium.en".data

/-- Model of `prompt_all_inputs` (src/MCTeams_and_Whisper.py lines 74-114).
Each argument is one raw `input()` result (`none` = `EOFError`).  An empty URL
makes the script call `sys.exit(1)`, modelled as `.error 1`. -/
def prompt_all_inputs (dirInput urlInput langInput devInput : Option (List Char)) :
    Except Int Config :=
  let outdir_in := pyStrip (dirInput.getD [])
  let outdirRaw := if outdir_in = [] then "transcripts".data else outdir_in
  let url := pyStrip (urlInput.getD [])
  if url = [] then .error 1
  else
    let lang_in := pyStrip (langInput.getD [])
    let language := lowerAscii (if lang_in = [] then "en".data else lang_in)
    let dev_in := pyStrip (devInput.getD [])
    let device0 := lowerAscii (if dev_in = [] then "cuda".data else dev_in)
    let device := if device0 = "cuda".data ∨ device0 = "cpu".data then device0 else "cuda".data
    let model :=
      if (language ≠ "en".data ∨ language = "auto".data) ∧ endsWithList (".en".data) default_model
      then replaceAll (".en".data) [] default_model
      else default_model
    .ok ⟨outdirRaw, url, language, device, model⟩

/-- Python `os.path.join` for POSIX paths. -/
def pathJoin (a b : List Char) : List Char :=
  if b.take 1 = ['/'] then b
  else if a = [] ∨ a.getLast? = some '/' then a ++ b
  else a ++ '/' :: b

/-- One recorded side effect of the script: a `subprocess.run` invocation
with its argument list. -/
inductive Event where
  | runProc (args : List (List Char))
  deriving Repr, DecidableEq

/-- How the process ends: `exited c` for `sys.exit(c)` or falling off the end
of `main` (exit status 0), `uncaught rc` for a `subprocess.CalledProcessError`
with the given child return code escaping `main`. -/
inductive Outcome where
  | exited (code : Int)
  | uncaught (returncode : Int)
  deriving Repr, DecidableEq

/-- The final process exit status: CPython terminates with status 1 when an
exception escapes `main()`. -/
def exitStatus : Outcome → Int
  | .exited c => c
  | .uncaught _ => 1

/-- The argument list of the ffmpeg invocation in `run_ffmpeg`
(src/MCTeams_and_Whisper.py lines 146-155). -/
def ffmpegArgs (urlTrimmed mp4Path : List Char) : List (List Char) :=
  ["ffmpeg".data, "-y".data, "-i".data, urlTrimmed, "-codec".data, "copy".data, mp4Path]

/-- The base whisper argument list built in `run_whisper`
(src/MCTeams_and_Whisper.py lines 159-168); `--language` is appended exactly
when the language is not `auto`. -/
def whisperArgs (mp4Path outdir model language device : List Char) : List (List Char) :=
  ["whisper".data, mp4Path, "--model".data, model, "--device".data, device,
   "--output_format".data, "txt".data, "--output_dir".data, outdir] ++
  (if language ≠ "auto".data then ["--language".data, language] else [])

/-- The two flags appended for the first whisper attempt. -/
def verboseFlags : List (List Char) := ["--verbose".data, "False".data]

/-- Model of `run_whisper` (src/MCTeams_and_Whisper.py lines 157-175): run the
command with `--verbose False`; if that child fails, retry once with the plain
command; a failure of the retry escapes as `CalledProcessError` (`some rc`). -/
def run_whisper (verboseExit plainExit : Int) (cmd : List (List Char)) :
    List Event × Option Int :=
  if verboseExit = 0 then ([.runProc (cmd ++ verboseFlags)], none)
  else if plainExit = 0 then ([.runProc (cmd ++ verboseFlags), .runProc cmd], none)
  else ([.runProc (cmd ++ verboseFlags), .runProc cmd], some plainExit)

/-- The whole environment a run of the script interacts with: the stdin
answers (`none` = `EOFError`), the PATH probes, the GPU probes, and the exit
codes the three possible child processes would return. -/
structure Env where
  ffmpegOnPath : Bool
  whisperOnPath : Bool
  modeInput : Option (List Char)
  dirInput : Option (List Char)
  urlInput : Option (List Char)
  langInput : Option (List Char)
  devInput : Option (List Char)
  torch : TorchProbe
  nvidiaSmi : Bool
  ffmpegExit : Int
  whisperVerboseExit : Int
  whisperPlainExit : Int
  deriving Repr, DecidableEq

/-- Model of `main` (src/MCTeams_and_Whisper.py lines 198-224), returning the
trace of subprocess invocations and the outcome.  `run_ffmpeg` uses
`check=True` with no surrounding handler, so a failing download escapes as an
uncaught `CalledProcessError`; the whisper call is wrapped in a handler that
exits with the child return code. -/
def mainRun (env : Env) : List Event × Outcome :=
  if !env.ffmpegOnPath then ([], .exited 1)
  else if !env.whisperOnPath then ([], .exited 1)
  else
    let mode := prompt_mode env.modeInput
    match prompt_all_inputs env.dirInput env.urlInput env.langInput env.devInput with
    | .error c => ([], .exited c)
    | .ok cfg =>
      let urlTrimmed := trim_after_altmanifest cfg.url
      let mp4Path := pathJoin cfg.outdirRaw ("video.mp4".data)
      let device := resolve_device cfg.device env.torch env.nvidiaSmi
      let dl := Event.runProc (ffmpegArgs urlTrimmed mp4Path)
      if env.ffmpegExit ≠ 0 then ([dl], .uncaught env.ffmpegExit)
      else if mode = "download".data then ([dl], .exited 0)
      else
        let w := run_whisper env.whisperVerboseExit env.whisperPlainExit
          (whisperArgs mp4Path cfg.outdirRaw cfg.model cfg.language device)
        match w.2 with
        | some rc => (dl :: w.1, .exited rc)
        | none => (dl :: w.1, .exited 0)

/-- One entry of the output directory listing, with its name and modification
time (`os.path.getmtime`). -/
structure FileEntry where
  name : List Char
  mtime : Nat
  deriving Repr, DecidableEq

/-- Python `max(x :: xs, key)` : the first element with the maximal key. -/
def pyMax (key : FileEntry → Nat) (x : FileEntry) (xs : List FileEntry) : FileEntry :=
  xs.foldl (fun acc it => if key acc < key it then it else acc) x

/-- The candidate filter of the first fallback in `pick_txt_output`:
`f.endswith(".txt") and f.startswith(basename)`. -/
def isTxtWithBase (basename : List Char) (f : FileEntry) : Bool :=
  endsWithList (".txt".data) f.name && basename.isPrefixOf f.name

/-- The candidate filter of the second fallback: any `.txt` name. -/
def isTxt (f : FileEntry) : Bool := endsWithList (".txt".data) f.name

/-- Model of `pick_txt_output` (src/MCTeams_and_Whisper.py lines 177-196) over
a directory listing: prefer `basename.txt` when present, then the newest
`.txt` whose name starts with the basename, then the newest `.txt` of any
name, and `none` when the directory has no `.txt` at all. -/
def pick_txt_output (listing : List FileEntry) (outdir basename : List Char) :
    Option (List Char) :=
  let txtName := basename ++ ".txt".data
  if (listing.map FileEntry.name).contains txtName then some (pathJoin outdir txtName)
  else
    let cands0 := listing.filter (isTxtWithBase basename)
    let cands := if cands0 = [] then listing.filter isTxt else cands0
    match cands with
    | [] => none
    | x :: xs => some (pathJoin outdir (pyMax FileEntry.mtime x xs).name)

/-! ### Character-level facts -/

theorem char_eq_of_toNat_eq {c d : Char} (h : c.toNat = d.toNat) : c = d :=
  Char.eq_of_val_eq (UInt32.toNat.inj h)

theorem toNat_ofNat_valid (n : Nat) (h : n < 55296) : (Char.ofNat n).toNat = n := by
  simp [Char.ofNat, Nat.isValidChar, h, Char.toNat, Char.ofNatAux, UInt32.ofNat',
    UInt32.toNat]

theorem asciiLower_toNat (c : Char) :
    (asciiLower c).toNat = if 65 ≤ c.toNat ∧ c.toNat ≤ 90 then c.toNat + 32 else c.toNat := by
  unfold asciiLower
  split
  · next h => exact toNat_ofNat_valid _ (by omega)
  · rfl

theorem isAsciiAlpha_toNat {c : Char} (h : isAsciiAlpha c = true) :
    (65 ≤ c.toNat ∧ c.toNat ≤ 90) ∨ (97 ≤ c.toNat ∧ c.toNat ≤ 122) := by
  simp [isAsciiAlpha] at h
  omega

theorem isSchemeChar_toNat {c : Char} (h : isSchemeChar c = true) :
    (65 ≤ c.toNat ∧ c.toNat ≤ 90) ∨ (97 ≤ c.toNat ∧ c.toNat ≤ 122) ∨
    (48 ≤ c.toNat ∧ c.toNat ≤ 57) ∨ c.toNat = 43 ∨ c.toNat = 45 ∨ c.toNat = 46 := by
  simp [isSchemeChar] at h
  omega

theorem isSchemeChar_of_toNat {c : Char}
    (h : (65 ≤ c.toNat ∧ c.toNat ≤ 90) ∨ (97 ≤ c.toNat ∧ c.toNat ≤ 122) ∨
      (48 ≤ c.toNat ∧ c.toNat ≤ 57) ∨ c.toNat = 43 ∨ c.toNat = 45 ∨ c.toNat = 46) :
    isSchemeChar c = true := by
  simp [isSchemeChar]
  omega

theorem asciiLower_idem (c : Char) : asciiLower (asciiLower c) = asciiLower c := by
  apply char_eq_of_toNat_eq
  rw [asciiLower_toNat, asciiLower_toNat]
  split
  · next h => rw [if_neg (by omega)]
  · rfl

theorem isAsciiAlpha_asciiLower {c : Char} (h : isAsciiAlpha c = true) :
    isAsciiAlpha (asciiLower c) = true := by
  have h2 := isAsciiAlpha_toNat h
  simp [isAsciiAlpha, asciiLower_toNat]
  split <;> omega

theorem isSchemeChar_asciiLower {c : Char} (h : isSchemeChar c = true) :
    isSchemeChar (asciiLower c) = true := by
  have h2 := isSchemeChar_toNat h
  apply isSchemeChar_of_toNat
  rw [asciiLower_toNat]
  split <;> omega

theorem asciiLower_eq_of_lower {c : Char} (h : ¬(65 ≤ c.toNat ∧ c.toNat ≤ 90)) :
    asciiLower c = c := by
  unfold asciiLower
  exact if_neg h

theorem schemeChar_toNat_bounds {c : Char} (h : isSchemeChar c = true) :
    43 ≤ c.toNat ∧ c.toNat ≤ 122 := by
  have h2 := isSchemeChar_toNat h
  omega

theorem ne_of_toNat_ne {c d : Char} (h : c.toNat ≠ d.toNat) : c ≠ d :=
  fun he => h (he ▸ rfl)

theorem beq_false_of_toNat_ne {c d : Char} (h : c.toNat ≠ d.toNat) : (c == d) = false := by
  simp only [beq_eq_false_iff_ne]
  exact ne_of_toNat_ne h

theorem schemeChar_notColon {c : Char} (h : isSchemeChar c = true) : notColon c = true := by
  have h2 := isSchemeChar_toNat h
  simp only [notColon, Bool.not_eq_true']
  refine beq_false_of_toNat_ne ?_
  have h58 : (':' : Char).toNat = 58 := by decide
  omega

/-! ### takeWhile / dropWhile helpers -/

theorem tw_app_of_all {α : Type} {p : α → Bool} {l1 : List α} (l2 : List α)
    (h : ∀ a ∈ l1, p a = true) :
    (l1 ++ l2).takeWhile p = l1 ++ l2.takeWhile p := by
  induction l1 with
  | nil => rfl
  | cons a t ih =>
    have ha := h a (List.mem_cons_self a t)
    simp only [List.cons_append, List.takeWhile_cons, ha, if_true]
    rw [ih (fun x hx => h x (List.mem_cons_of_mem a hx))]

theorem dw_app_of_all {α : Type} {p : α → Bool} {l1 : List α} (l2 : List α)
    (h : ∀ a ∈ l1, p a = true) :
    (l1 ++ l2).dropWhile p = l2.dropWhile p := by
  induction l1 with
  | nil => rfl
  | cons a t ih =>
    have ha := h a (List.mem_cons_self a t)
    simp only [List.cons_append, List.dropWhile_cons, ha, if_true]
    exact ih (fun x hx => h x (List.mem_cons_of_mem a hx))

theorem tw_all {α : Type} {p : α → Bool} {l : List α} (h : ∀ a ∈ l, p a = true) :
    l.takeWhile p = l := by
  have h2 := @tw_app_of_all α p l [] h
  simpa using h2

theorem dw_all {α : Type} {p : α → Bool} {l : List α} (h : ∀ a ∈ l, p a = true) :
    l.dropWhile p = [] := by
  have h2 := @dw_app_of_all α p l [] h
  simpa using h2

theorem tw_app_stop {α : Type} {p : α → Bool} {l1 : List α} {c : α} (l2 : List α)
    (h : ∀ a ∈ l1, p a = true) (hc : p c = false) :
    (l1 ++ c :: l2).takeWhile p = l1 := by
  rw [tw_app_of_all _ h]
  simp [List.takeWhile_cons, hc]

theorem dw_app_stop {α : Type} {p : α → Bool} {l1 : List α} {c : α} (l2 : List α)
    (h : ∀ a ∈ l1, p a = true) (hc : p c = false) :
    (l1 ++ c :: l2).dropWhile p = c :: l2 := by
  rw [dw_app_of_all _ h]
  simp [List.dropWhile_cons, hc]

theorem tw_app_of_mem {α : Type} {p : α → Bool} {l1 : List α} (l2 : List α)
    (h : ∃ a ∈ l1, p a = false) :
    (l1 ++ l2).takeWhile p = l1.takeWhile p := by
  induction l1 with
  | nil => simp at h
  | cons a t ih =>
    by_cases ha : p a = true
    · simp only [List.cons_append, List.takeWhile_cons, ha, if_true]
      obtain ⟨x, hx, hpx⟩ := h
      rcases List.mem_cons.mp hx with he | hm
      · rw [he] at hpx; rw [hpx] at ha; cases ha
      · rw [ih ⟨x, hm, hpx⟩]
    · have ha2 : p a = false := by revert ha; cases p a <;> simp
      simp [List.cons_append, List.takeWhile_cons, ha2]

theorem dw_app_of_mem {α : Type} {p : α → Bool} {l1 : List α} (l2 : List α)
    (h : ∃ a ∈ l1, p a = false) :
    (l1 ++ l2).dropWhile p = l1.dropWhile p ++ l2 := by
  induction l1 with
  | nil => simp at h
  | cons a t ih =>
    by_cases ha : p a = true
    · simp only [List.cons_append, List.dropWhile_cons, ha, if_true]
      obtain ⟨x, hx, hpx⟩ := h
      rcases List.mem_cons.mp hx with he | hm
      · rw [he] at hpx; rw [hpx] at ha; cases ha
      · rw [ih ⟨x, hm, hpx⟩]
    · have ha2 : p a = false := by revert ha; cases p a <;> simp
      simp [List.cons_append, List.dropWhile_cons, ha2]

theorem dw_head_false {α : Type} {p : α → Bool} :
    ∀ {l : List α} {c : α} {r : List α}, l.dropWhile p = c :: r → p c = false := by
  intro l
  induction l with
  | nil => intro c r h; cases h
  | cons a t ih =>
    intro c r h
    rw [List.dropWhile_cons] at h
    by_cases ha : p a = true
    · rw [if_pos ha] at h
      exact ih h
    · have ha2 : p a = false := by revert ha; cases p a <;> simp
      rw [if_neg (by simp [ha2])] at h
      cases h
      exact ha2

theorem mem_tw {α : Type} {p : α → Bool} {l : List α} {a : α}
    (h : a ∈ l.takeWhile p) : a ∈ l :=
  (List.takeWhile_sublist p).mem h

theorem tw_decomp {α : Type} (p : α → Bool) (l : List α) :
    ∃ r, l.takeWhile p ++ r = l :=
  ⟨l.dropWhile p, List.takeWhile_append_dropWhile p l⟩

/-! ### findSub: Python str.find returns the first occurrence -/

theorem isPrefixOf_iff_exists {l1 l2 : List Char} :
    l1.isPrefixOf l2 = true ↔ ∃ t, l1 ++ t = l2 := by
  induction l1 generalizing l2 with
  | nil => simp [List.isPrefixOf]
  | cons a s ih =>
    cases l2 with
    | nil => simp [List.isPrefixOf]
    | cons b t2 =>
      simp only [List.isPrefixOf, Bool.and_eq_true, beq_iff_eq, ih, List.cons_append,
        List.cons.injEq]
      constructor
      · rintro ⟨he, t, ht⟩
        exact ⟨t, he, ht⟩
      · rintro ⟨t, he, ht⟩
        exact ⟨he, t, ht⟩

theorem findSub_occ {pat : List Char} :
    ∀ {l : List Char} {i : Nat}, findSub pat l = some i → ∃ t, pat ++ t = l.drop i := by
  intro l
  induction l with
  | nil =>
    intro i h
    unfold findSub at h
    by_cases hp : pat = []
    · rw [if_pos hp] at h
      cases h
      exact ⟨[], by simp [hp]⟩
    · rw [if_neg hp] at h
      cases h
  | cons c rest ih =>
    intro i h
    unfold findSub at h
    by_cases hp : pat.isPrefixOf (c :: rest) = true
    · rw [if_pos hp] at h
      cases h
      exact isPrefixOf_iff_exists.mp hp
    · rw [if_neg hp] at h
      cases hfr : findSub pat rest with
      | none => rw [hfr] at h; cases h
      | some i0 =>
        rw [hfr] at h
        cases h
        simpa using ih hfr

theorem findSub_min {pat : List Char} :
    ∀ {l : List Char} {i : Nat}, findSub pat l = some i →
      ∀ j, j < i → ¬∃ t, pat ++ t = l.drop j := by
  intro l
  induction l with
  | nil =>
    intro i h j hj
    unfold findSub at h
    by_cases hp : pat = []
    · rw [if_pos hp] at h
      cases h
      omega
    · rw [if_neg hp] at h
      cases h
  | cons c rest ih =>
    intro i h j hj
    unfold findSub at h
    by_cases hp : pat.isPrefixOf (c :: rest) = true
    · rw [if_pos hp] at h
      cases h
      omega
    · rw [if_neg hp] at h
      cases hfr : findSub pat rest with
      | none => rw [hfr] at h; cases h
      | some i0 =>
        rw [hfr] at h
        cases h
        cases j with
        | zero =>
          intro hocc
          exact hp (isPrefixOf_iff_exists.mpr (by simpa using hocc))
        | succ j0 =>
          have hj0 : j0 < i0 := by omega
          simpa using ih hfr j0 hj0

theorem findSub_none_no_occ {pat : List Char} :
    ∀ {l : List Char}, findSub pat l = none → ∀ s t, s ++ pat ++ t ≠ l := by
  intro l
  induction l with
  | nil =>
    intro h s t he
    unfold findSub at h
    by_cases hp : pat = []
    · rw [if_pos hp] at h; cases h
    · rw [if_neg hp] at h
      rcases List.append_eq_nil.mp he with ⟨h1, h2⟩
      rcases List.append_eq_nil.mp h1 with ⟨_, h3⟩
      exact hp h3
  | cons c rest ih =>
    intro h s t he
    unfold findSub at h
    by_cases hp : pat.isPrefixOf (c :: rest) = true
    · rw [if_pos hp] at h; cases h
    · rw [if_neg hp] at h
      cases s with
      | nil =>
        exact hp (isPrefixOf_iff_exists.mpr ⟨t, by simpa using he⟩)
      | cons a s2 =>
        have h2 : findSub pat rest = none := by
          cases hfr : findSub pat rest with
          | none => rfl
          | some i0 => rw [hfr] at h; cases h
        have he2 : s2 ++ pat ++ t = rest := by
          have h3 := List.cons.inj (by simpa using he)
          rw [List.append_assoc]
          exact h3.2
        exact ih h2 s2 t he2

/-! ### rfindAmp: Python str.rfind finds the last ampersand -/

theorem rfindAmp_lt : ∀ {l : List Char} {i : Nat}, rfindAmp l = some i → i < l.length := by
  intro l
  induction l with
  | nil => intro i h; cases h
  | cons c rest ih =>
    intro i h
    unfold rfindAmp at h
    cases hfr : rfindAmp rest with
    | some i0 =>
      rw [hfr] at h
      cases h
      have := ih hfr
      simp only [List.length_cons]
      omega
    | none =>
      rw [hfr] at h
      by_cases hc : c = '&'
      · rw [if_pos hc] at h
        cases h
        simp
      · rw [if_neg hc] at h
        cases h

theorem rfindAmp_none : ∀ {l : List Char}, rfindAmp l = none → ∀ c ∈ l, c ≠ '&' := by
  intro l
  induction l with
  | nil => intro _ c hc; cases hc
  | cons a rest ih =>
    intro h c hc
    unfold rfindAmp at h
    cases hfr : rfindAmp rest with
    | some i0 => rw [hfr] at h; cases h
    | none =>
      rw [hfr] at h
      by_cases ha : a = '&'
      · rw [if_pos ha] at h; cases h
      · rw [if_neg ha] at h
        rcases List.mem_cons.mp hc with he | hm
        · rw [he]; exact ha
        · exact ih hfr c hm

theorem rfindAmp_at : ∀ {l : List Char} {i : Nat}, rfindAmp l = some i →
    ∃ r, l.drop i = '&' :: r := by
  intro l
  induction l with
  | nil => intro i h; cases h
  | cons c rest ih =>
    intro i h
    unfold rfindAmp at h
    cases hfr : rfindAmp rest with
    | some i0 =>
      rw [hfr] at h
      cases h
      simpa using ih hfr
    | none =>
      rw [hfr] at h
      by_cases hc : c = '&'
      · rw [if_pos hc] at h
        cases h
        exact ⟨rest, by simp [hc]⟩
      · rw [if_neg hc] at h
        cases h

theorem rfindAmp_last : ∀ {l : List Char} {i : Nat}, rfindAmp l = some i →
    ∀ j, i < j → ∀ r, l.drop j ≠ '&' :: r := by
  intro l
  induction l with
  | nil => intro i h; cases h
  | cons c rest ih =>
    intro i h j hj r hdrop
    unfold rfindAmp at h
    cases hfr : rfindAmp rest with
    | some i0 =>
      rw [hfr] at h
      cases h
      cases j with
      | zero => omega
      | succ j0 =>
        exact ih hfr j0 (by omega) r (by simpa using hdrop)
    | none =>
      rw [hfr] at h
      by_cases hc : c = '&'
      · rw [if_pos hc] at h
        cases h
        cases j with
        | zero => omega
        | succ j0 =>
          have hmem : '&' ∈ rest := by
            have hsub := List.drop_sublist j0 rest
            have hd2 : List.drop j0 rest = '&' :: r := by simpa using hdrop
            rw [hd2] at hsub
            exact hsub.mem (List.mem_cons_self _ _)
          exact rfindAmp_none hfr '&' hmem rfl
      · rw [if_neg hc] at h
        cases h

/-! ### rstripAmp and query parameters -/

theorem rstripAmp_decomp (l : List Char) :
    ∃ k, rstripAmp l ++ List.replicate k '&' = l := by
  have hsplit := List.takeWhile_append_dropWhile (fun c => c == '&') l.reverse
  have hall : ∀ c ∈ l.reverse.takeWhile (fun c => c == '&'), c = '&' := by
    intro c hc
    have := List.mem_takeWhile_imp hc
    exact beq_iff_eq.mp this
  have hrep := List.eq_replicate_of_mem hall
  refine ⟨(l.reverse.takeWhile fun c => c == '&').length, ?_⟩
  apply List.reverse_injective
  rw [List.reverse_append, List.reverse_replicate, rstripAmp, List.reverse_reverse, ← hrep,
    List.takeWhile_append_dropWhile]

theorem splitOnAmp_ne_nil (l : List Char) : splitOnAmp l ≠ [] := by
  cases l with
  | nil => simp [splitOnAmp]
  | cons c rest =>
    unfold splitOnAmp
    by_cases hc : c = '&'
    · simp [hc]
    · rw [if_neg hc]
      cases splitOnAmp rest <;> simp

theorem splitOnAmp_replicate (k : Nat) :
    splitOnAmp (List.replicate k '&') = List.replicate (k + 1) [] := by
  induction k with
  | zero => rfl
  | succ n ih =>
    rw [List.replicate_succ, List.replicate_succ]
    unfold splitOnAmp
    rw [if_pos rfl, ih]

theorem splitOnAmp_app_replicate (l : List Char) (k : Nat) :
    splitOnAmp (l ++ List.replicate k '&') = splitOnAmp l ++ List.replicate k [] := by
  induction l with
  | nil =>
    rw [List.nil_append, splitOnAmp_replicate]
    show List.replicate (k + 1) [] = [[]] ++ List.replicate k []
    rw [List.replicate_succ]
    rfl
  | cons c rest ih =>
    by_cases hc : c = '&'
    · rw [List.cons_append]
      unfold splitOnAmp
      rw [if_pos hc, if_pos hc, ih]
      rfl
    · rw [List.cons_append]
      unfold splitOnAmp
      rw [if_neg hc, if_neg hc, ih]
      cases hso : splitOnAmp rest with
      | nil => exact absurd hso (splitOnAmp_ne_nil rest)
      | cons s ss => rfl

theorem queryParams_rstripAmp (l : List Char) :
    queryParams (rstripAmp l) = queryParams l := by
  obtain ⟨k, hk⟩ := rstripAmp_decomp l
  conv_rhs => rw [← hk]
  unfold queryParams
  rw [splitOnAmp_app_replicate, List.filter_append]
  have hrep : (List.replicate k ([] : List Char)).filter (fun s => !s.isEmpty) = [] := by
    induction k with
    | zero => rfl
    | succ n ih => rw [List.replicate_succ, List.filter_cons]; simp [ih]
  rw [hrep, List.append_nil]

/-! ### pyMax: Python max picks the first element with the maximal key -/

theorem pyMax_mem (key : FileEntry → Nat) (x : FileEntry) (xs : List FileEntry) :
    pyMax key x xs ∈ x :: xs := by
  induction xs generalizing x with
  | nil => simp [pyMax]
  | cons a t ih =>
    unfold pyMax
    rw [List.foldl_cons]
    have h2 := ih (if key x < key a then a else x)
    unfold pyMax at h2
    rcases List.mem_cons.mp h2 with he | hm
    · rw [he]
      by_cases hlt : key x < key a
      · rw [if_pos hlt]; exact List.mem_cons_of_mem _ (List.mem_cons_self _ _)
      · rw [if_neg hlt]; exact List.mem_cons_self _ _
    · exact List.mem_cons_of_mem _ (List.mem_cons_of_mem _ hm)

theorem pyMax_ge (key : FileEntry → Nat) (x : FileEntry) (xs : List FileEntry) :
    ∀ y ∈ x :: xs, key y ≤ key (pyMax key x xs) := by
  induction xs generalizing x with
  | nil =>
    intro y hy
    rcases List.mem_cons.mp hy with he | hm
    · rw [he]; exact Nat.le_refl _
    · cases hm
  | cons a t ih =>
    intro y hy
    unfold pyMax
    rw [List.foldl_cons]
    have hstep : ∀ z ∈ (if key x < key a then a else x) :: t,
        key z ≤ key (pyMax key (if key x < key a then a else x) t) := ih _
    unfold pyMax at hstep
    rcases List.mem_cons.mp hy with he | hm
    · rw [he]
      by_cases hlt : key x < key a
      · have h3 := hstep _ (List.mem_cons_self _ _)
        rw [if_pos hlt] at *
        omega
      · have h3 := hstep _ (List.mem_cons_self _ _)
        rw [if_neg hlt] at *
        omega
    · rcases List.mem_cons.mp hm with he2 | hm2
      · rw [he2]
        by_cases hlt : key x < key a
        · have h3 := hstep _ (List.mem_cons_self _ _)
          rw [if_pos hlt] at *
          omega
        · have h3 := hstep _ (List.mem_cons_self _ _)
          rw [if_neg hlt] at *
          omega
      · exact hstep y (List.mem_cons_of_mem _ hm2)

/-! ### Character classes of scheme characters -/

theorem schemeChar_good {c : Char} (h : isSchemeChar c = true) :
    notColon c = true ∧ notTabCrLf c = true ∧ isC0Space c = false ∧
    notHash c = true ∧ notQuest c = true := by
  have hb := isSchemeChar_toNat h
  have h58 : (':' : Char).toNat = 58 := by decide
  have h9 : ('\t' : Char).toNat = 9 := by decide
  have h13 : ('\x0d' : Char).toNat = 13 := by decide
  have h10 : ('\n' : Char).toNat = 10 := by decide
  have h35 : ('#' : Char).toNat = 35 := by decide
  have h63 : ('?' : Char).toNat = 63 := by decide
  refine ⟨?_, ?_, ?_, ?_, ?_⟩
  · simp only [notColon, Bool.not_eq_true']
    exact beq_false_of_toNat_ne (by omega)
  · simp only [notTabCrLf, Bool.not_eq_true', Bool.or_eq_false_iff]
    exact ⟨⟨beq_false_of_toNat_ne (by omega), beq_false_of_toNat_ne (by omega)⟩,
      beq_false_of_toNat_ne (by omega)⟩
  · simp only [isC0Space, decide_eq_false_iff_not]
    omega
  · simp only [notHash, Bool.not_eq_true']
    exact beq_false_of_toNat_ne (by omega)
  · simp only [notQuest, Bool.not_eq_true']
    exact beq_false_of_toNat_ne (by omega)

theorem alpha_schemeChar {c : Char} (h : isAsciiAlpha c = true) : isSchemeChar c = true := by
  have hb := isAsciiAlpha_toNat h
  exact isSchemeChar_of_toNat (by omega)

theorem alpha_not_c0 {c : Char} (h : isAsciiAlpha c = true) : isC0Space c = false := by
  have hb := isAsciiAlpha_toNat h
  simp only [isC0Space, decide_eq_false_iff_not]
  omega

/-! ### preprocess -/

theorem notTabCrLf_of_not_c0 {c : Char} (h : isC0Space c = false) : notTabCrLf c = true := by
  have hb : ¬(c.toNat ≤ 32) := by simpa [isC0Space] using h
  have h9 : ('\t' : Char).toNat = 9 := by decide
  have h13 : ('\x0d' : Char).toNat = 13 := by decide
  have h10 : ('\n' : Char).toNat = 10 := by decide
  simp only [notTabCrLf, Bool.not_eq_true', Bool.or_eq_false_iff]
  exact ⟨⟨beq_false_of_toNat_ne (by omega), beq_false_of_toNat_ne (by omega)⟩,
    beq_false_of_toNat_ne (by omega)⟩

theorem preprocess_shape (l : List Char) :
    preprocess l = [] ∨ ∃ c r, preprocess l = c :: r ∧ isC0Space c = false := by
  unfold preprocess
  cases hd : l.dropWhile isC0Space with
  | nil => left; rfl
  | cons c r =>
    have hc := dw_head_false hd
    have hgood := notTabCrLf_of_not_c0 hc
    right
    exact ⟨c, r.filter notTabCrLf, by rw [List.filter_cons, if_pos hgood], hc⟩

theorem mem_preprocess_good {l : List Char} {c : Char} (h : c ∈ preprocess l) :
    notTabCrLf c = true :=
  (List.mem_filter.mp h).2

theorem preprocess_id (l : List Char)
    (h1 : l = [] ∨ ∃ c r, l = c :: r ∧ isC0Space c = false)
    (h2 : ∀ c ∈ l, notTabCrLf c = true) : preprocess l = l := by
  rcases h1 with he | ⟨c, r, he, hc⟩
  · rw [he]; rfl
  · unfold preprocess
    rw [he, List.dropWhile_cons, if_neg (by simp [hc])]
    apply List.filter_eq_self.mpr
    intro a ha
    exact h2 a (he ▸ ha)

/-! ### lowerAscii facts -/

theorem lowerAscii_idem (l : List Char) : lowerAscii (lowerAscii l) = lowerAscii l := by
  unfold lowerAscii
  rw [List.map_map]
  exact List.map_congr_left (fun x _ => asciiLower_idem x)

theorem lowerAscii_cons (c : Char) (cs : List Char) :
    lowerAscii (c :: cs) = asciiLower c :: lowerAscii cs := rfl

theorem lowerAscii_take (l : List Char) (n : Nat) :
    lowerAscii (l.take n) = (lowerAscii l).take n := by
  unfold lowerAscii
  exact List.map_take asciiLower l n

/-! ### Reparse helper lemmas for the urlunsplit output -/

theorem splitScheme_app {c : Char} {cs : List Char} (rest : List Char)
    (hh : isAsciiAlpha c = true) (ht : ∀ x ∈ cs, isSchemeChar x = true) :
    splitScheme ((c :: cs) ++ ':' :: rest) = (lowerAscii (c :: cs), rest) := by
  have hall : ∀ x ∈ c :: cs, notColon x = true := by
    intro x hx
    rcases List.mem_cons.mp hx with he | hm
    · rw [he]; exact (schemeChar_good (alpha_schemeChar hh)).1
    · exact (schemeChar_good (ht x hm)).1
  have hcolon : notColon ':' = false := by decide
  have htw := @tw_app_stop Char notColon (c :: cs) ':' rest hall hcolon
  have hdw := @dw_app_stop Char notColon (c :: cs) ':' rest hall hcolon
  unfold splitScheme
  rw [htw, hdw]
  simp only [List.all_eq_true]
  rw [if_pos (by simp only [Bool.and_eq_true, List.all_eq_true]; exact ⟨hh, ht⟩)]

theorem splitScheme_nil : splitScheme [] = ([], []) := rfl

theorem splitScheme_none_of_no_colon (l : List Char) (h : ∀ c ∈ l, notColon c = true) :
    splitScheme l = ([], l) := by
  unfold splitScheme
  rw [dw_all h]

theorem splitScheme_none_of_head {c : Char} (cs : List Char) (h : isAsciiAlpha c = false) :
    splitScheme (c :: cs) = ([], c :: cs) := by
  unfold splitScheme
  by_cases hc : notColon c = true
  · rw [List.takeWhile_cons, if_pos hc]
    cases hdw : (c :: cs).dropWhile notColon with
    | nil => rfl
    | cons d r => simp [h]
  · have hc2 : notColon c = false := by revert hc; cases notColon c <;> simp
    rw [List.takeWhile_cons, if_neg (by simp [hc2]), List.dropWhile_cons,
      if_neg (by simp [hc2])]

theorem splitScheme_none_of_bad_tail (l1 : List Char) {c : Char} (l2 : List Char)
    (h1 : ∀ x ∈ l1, notColon x = true) (h2 : l1 ≠ [])
    (h3 : notColon c = true) (h4 : isSchemeChar c = false) :
    splitScheme (l1 ++ c :: l2) = ([], l1 ++ c :: l2) := by
  have htw : (l1 ++ c :: l2).takeWhile notColon = l1 ++ (c :: l2).takeWhile notColon :=
    tw_app_of_all _ h1
  rw [List.takeWhile_cons, if_pos h3] at htw
  unfold splitScheme
  cases hdw : (l1 ++ c :: l2).dropWhile notColon with
  | nil => rfl
  | cons d r =>
    rw [htw]
    cases l1 with
    | nil => exact absurd rfl h2
    | cons a t =>
      have hfalse : ((t ++ c :: l2.takeWhile notColon).all isSchemeChar) = false := by
        apply List.all_eq_false.mpr
        refine ⟨c, List.mem_append.mpr (Or.inr (List.mem_cons_self _ _)), ?_⟩
        simp [h4]
      simp [hfalse]

theorem splitScheme_none_app {u0 : List Char} (p rest2 : List Char)
    (hpre : ∃ r0, p ++ r0 = u0)
    (hcolon : ∃ x ∈ p, notColon x = false)
    (hfail : splitScheme u0 = ([], u0)) :
    splitScheme (p ++ rest2) = ([], p ++ rest2) := by
  obtain ⟨r0, hr0⟩ := hpre
  have htw_out : (p ++ rest2).takeWhile notColon = p.takeWhile notColon :=
    tw_app_of_mem _ hcolon
  have hdw_out : (p ++ rest2).dropWhile notColon = p.dropWhile notColon ++ rest2 :=
    dw_app_of_mem _ hcolon
  have htw_u0 : u0.takeWhile notColon = p.takeWhile notColon := by
    rw [← hr0]; exact tw_app_of_mem _ hcolon
  have hdw_u0 : u0.dropWhile notColon = p.dropWhile notColon ++ r0 := by
    rw [← hr0]; exact dw_app_of_mem _ hcolon
  have hpd : p.dropWhile notColon ≠ [] := by
    intro hnil
    obtain ⟨x, hx, hpx⟩ := hcolon
    have := List.dropWhile_eq_nil_iff.mp hnil x hx
    rw [hpx] at this
    cases this
  cases hpd2 : p.dropWhile notColon with
  | nil => exact absurd hpd2 hpd
  | cons d dr =>
    cases htw2 : p.takeWhile notColon with
    | nil =>
      unfold splitScheme
      rw [hdw_out, hpd2, List.cons_append, htw_out, htw2]
    | cons c cs =>
      have hcond : (isAsciiAlpha c && cs.all isSchemeChar) = false := by
        by_contra hcond
        have hcond2 : (isAsciiAlpha c && cs.all isSchemeChar) = true := by
          revert hcond; cases (isAsciiAlpha c && cs.all isSchemeChar) <;> simp
        have : splitScheme u0 = (lowerAscii (c :: cs), dr ++ r0) := by
          unfold splitScheme
          rw [hdw_u0, hpd2, List.cons_append, htw_u0, htw2]
          simp [hcond2]
        rw [hfail] at this
        have hfst := congrArg Prod.fst this
        simp only at hfst
        rw [lowerAscii_cons] at hfst
        cases hfst
      unfold splitScheme
      rw [hdw_out, hpd2, List.cons_append, htw_out, htw2]
      simp [hcond]

theorem splitNetloc_out (n rest : List Char)
    (hn : ∀ c ∈ n, netlocOk c = true)
    (hrest : rest = [] ∨ ∃ d r2, rest = d :: r2 ∧ netlocOk d = false) :
    splitNetloc ('/' :: '/' :: (n ++ rest)) = (n, rest) := by
  unfold splitNetloc
  rw [if_pos (by rfl)]
  have hdrop : ('/' :: '/' :: (n ++ rest)).drop 2 = n ++ rest := rfl
  rw [hdrop]
  rcases hrest with he | ⟨d, r2, he, hd⟩
  · rw [he, List.append_nil, tw_all hn, dw_all hn]
  · rw [he, tw_app_stop r2 hn hd, dw_app_stop r2 hn hd]

theorem splitNetloc_none (l : List Char) (h : l.take 2 ≠ ['/', '/']) :
    splitNetloc l = ([], l) := by
  unfold splitNetloc
  rw [if_neg h]

/-- The query-and-fragment suffix appended by `urlunsplit`. -/
def tailPart (q f : List Char) : List Char :=
  (if q = [] then [] else '?' :: q) ++ (if f = [] then [] else '#' :: f)

theorem tailPart_shape (q f : List Char) :
    tailPart q f = [] ∨ (∃ r3, tailPart q f = '?' :: r3) ∨ ∃ r3, tailPart q f = '#' :: r3 := by
  unfold tailPart
  by_cases hq : q = []
  · by_cases hf : f = []
    · left; simp [hq, hf]
    · right; right; exact ⟨f, by simp [hq, hf]⟩
  · right; left; exact ⟨q ++ (if f = [] then [] else '#' :: f), by simp [hq]⟩

theorem splitFragment_tail (p q f : List Char)
    (hp : ∀ c ∈ p, notHash c = true) (hq : ∀ c ∈ q, notHash c = true) :
    splitFragment (p ++ tailPart q f) =
      (p ++ (if q = [] then [] else '?' :: q), f) := by
  have hpq : ∀ c ∈ p ++ (if q = [] then [] else '?' :: q), notHash c = true := by
    intro c hc
    rcases List.mem_append.mp hc with hm | hm
    · exact hp c hm
    · by_cases hqe : q = []
      · rw [hqe] at hm; cases hm
      · rw [if_neg hqe] at hm
        rcases List.mem_cons.mp hm with he | hm2
        · rw [he]; decide
        · exact hq c hm2
  unfold splitFragment tailPart
  by_cases hf : f = []
  · rw [if_pos hf, List.append_nil]
    rw [tw_all hpq, dw_all hpq, hf]
    rfl
  · rw [if_neg hf, ← List.append_assoc]
    rw [tw_app_stop f hpq (by decide), dw_app_stop f hpq (by decide)]
    rfl

theorem splitQuery_tail (p q : List Char) (hp : ∀ c ∈ p, notQuest c = true) :
    splitQuery (p ++ (if q = [] then [] else '?' :: q)) = (p, q) := by
  unfold splitQuery
  by_cases hq : q = []
  · rw [if_pos hq, List.append_nil, tw_all hp, dw_all hp, hq]
    rfl
  · rw [if_neg hq, tw_app_stop q hp (by decide), dw_app_stop q hp (by decide)]
    rfl

theorem take2_ne_ss (p q f : List Char) (hp : p.take 2 ≠ ['/', '/']) :
    (p ++ tailPart q f).take 2 ≠ ['/', '/'] := by
  rcases tailPart_shape q f with ht | ⟨r3, ht⟩ | ⟨r3, ht⟩ <;> rw [ht] <;> cases p with
  | nil => simp
  | cons a t =>
    cases t with
    | nil => simp
    | cons b t2 =>
      intro hcontra
      apply hp
      simpa using hcontra

/-! ### Parse-side characterizations -/

theorem notColon_eq_false {c : Char} (h : notColon c = false) : c = ':' := by
  have h2 : (c == ':') = true := by
    revert h; unfold notColon; cases c == ':' <;> simp
  exact beq_iff_eq.mp h2

theorem splitScheme_spec (l : List Char) :
    ((splitScheme l).1 = [] ∧ (splitScheme l).2 = l) ∨
    (∃ c cs r, l = (c :: cs) ++ ':' :: r ∧ isAsciiAlpha c = true ∧
      (∀ x ∈ cs, isSchemeChar x = true) ∧
      (splitScheme l).1 = lowerAscii (c :: cs) ∧ (splitScheme l).2 = r) := by
  cases hdw : l.dropWhile notColon with
  | nil => left; constructor <;> simp [splitScheme, hdw]
  | cons d r =>
    cases htw : l.takeWhile notColon with
    | nil => left; constructor <;> simp [splitScheme, hdw, htw]
    | cons c cs =>
      by_cases hcond : (isAsciiAlpha c && cs.all isSchemeChar) = true
      · right
        have hd : d = ':' := notColon_eq_false (dw_head_false hdw)
        refine ⟨c, cs, r, ?_, ?_, ?_, ?_, ?_⟩
        · rw [← List.takeWhile_append_dropWhile notColon l, htw, hdw, hd]
        · exact (Bool.and_eq_true _ _).mp hcond |>.1
        · intro x hx
          exact List.all_eq_true.mp ((Bool.and_eq_true _ _).mp hcond).2 x hx
        · simp [splitScheme, hdw, htw, hcond]
        · simp [splitScheme, hdw, htw, hcond]
      · have hcond2 : (isAsciiAlpha c && cs.all isSchemeChar) = false := by
          revert hcond; cases (isAsciiAlpha c && cs.all isSchemeChar) <;> simp
        left
        constructor <;> simp [splitScheme, hdw, htw, hcond2]

theorem splitScheme_pair (l : List Char)
    (h1 : (splitScheme l).1 = []) (h2 : (splitScheme l).2 = l) :
    splitScheme l = ([], l) := by
  have h3 : splitScheme l = ((splitScheme l).1, (splitScheme l).2) := rfl
  rw [h3, h1, h2]

theorem tw_head {α : Type} {q : α → Bool} {l : List α} {a : α} {t : List α}
    (h : l.takeWhile q = a :: t) : ∃ l2, l = a :: l2 := by
  cases l with
  | nil => cases h
  | cons x xs =>
    rw [List.takeWhile_cons] at h
    by_cases hx : q x = true
    · rw [if_pos hx] at h
      exact ⟨xs, by rw [(List.cons.inj h).1]⟩
    · rw [if_neg hx] at h
      cases h

theorem mem_splitScheme_snd {l : List Char} {c : Char} (h : c ∈ (splitScheme l).2) :
    c ∈ l := by
  rcases splitScheme_spec l with ⟨_, h2⟩ | ⟨c0, cs, r, hl, _, _, _, h2⟩
  · rw [h2] at h; exact h
  · rw [h2] at h
    rw [hl]
    exact List.mem_append.mpr (Or.inr (List.mem_cons_of_mem _ h))

theorem mem_splitNetloc_fst_ok {l : List Char} {c : Char} (h : c ∈ (splitNetloc l).1) :
    netlocOk c = true := by
  unfold splitNetloc at h
  by_cases ht : l.take 2 = ['/', '/']
  · rw [if_pos ht] at h
    exact List.mem_takeWhile_imp h
  · rw [if_neg ht] at h
    cases h

theorem mem_splitNetloc_fst {l : List Char} {c : Char} (h : c ∈ (splitNetloc l).1) :
    c ∈ l := by
  unfold splitNetloc at h
  by_cases ht : l.take 2 = ['/', '/']
  · rw [if_pos ht] at h
    exact (List.drop_sublist 2 l).mem (mem_tw h)
  · rw [if_neg ht] at h
    cases h

theorem mem_splitNetloc_snd {l : List Char} {c : Char} (h : c ∈ (splitNetloc l).2) :
    c ∈ l := by
  unfold splitNetloc at h
  by_cases ht : l.take 2 = ['/', '/']
  · rw [if_pos ht] at h
    exact (List.drop_sublist 2 l).mem ((List.dropWhile_sublist netlocOk).mem h)
  · rw [if_neg ht] at h
    exact h

theorem mem_splitFragment_fst {l : List Char} {c : Char} (h : c ∈ (splitFragment l).1) :
    c ∈ l := mem_tw h

theorem mem_splitFragment_snd {l : List Char} {c : Char} (h : c ∈ (splitFragment l).2) :
    c ∈ l := by
  unfold splitFragment at h
  exact (List.dropWhile_sublist notHash).mem ((List.tail_sublist _).mem h)

theorem mem_splitQuery_fst {l : List Char} {c : Char} (h : c ∈ (splitQuery l).1) :
    c ∈ l := mem_tw h

theorem mem_splitQuery_snd {l : List Char} {c : Char} (h : c ∈ (splitQuery l).2) :
    c ∈ l := by
  unfold splitQuery at h
  exact (List.dropWhile_sublist notQuest).mem ((List.tail_sublist _).mem h)

/-! ### Assembly helpers -/

theorem urlsplit_eq_of_stages (x S A N B PQ F P Q : List Char)
    (h0 : preprocess x = x)
    (h1 : splitScheme x = (S, A))
    (h2 : splitNetloc A = (N, B))
    (h3 : splitFragment B = (PQ, F))
    (h4 : splitQuery PQ = (P, Q)) :
    urlsplit x = ⟨S, N, P, Q, F⟩ := by
  unfold urlsplit
  simp only [h0, h1, h2, h3, h4]

theorem urlunsplit_decomp (r : SplitResult) :
    urlunsplit r =
      (if r.scheme = [] then [] else r.scheme ++ [':']) ++
      ((if r.netloc ≠ [] ∨ (r.scheme ≠ [] ∧ r.scheme ∈ usesNetloc ∧ r.path.take 2 ≠ ['/', '/'])
        then '/' :: '/' :: r.netloc ++
          (if r.path ≠ [] ∧ r.path.take 1 ≠ ['/'] then '/' :: r.path else r.path)
        else r.path) ++
      tailPart r.query r.fragment) := by
  unfold urlunsplit tailPart
  by_cases hs : r.scheme = [] <;> by_cases hq : r.query = [] <;>
    by_cases hf : r.fragment = [] <;>
    simp [hs, hq, hf, List.append_assoc]

theorem urlunsplit_decomp5 (s n p q f : List Char) :
    urlunsplit ⟨s, n, p, q, f⟩ =
      (if s = [] then [] else s ++ [':']) ++
      ((if n ≠ [] ∨ (s ≠ [] ∧ s ∈ usesNetloc ∧ p.take 2 ≠ ['/', '/'])
        then '/' :: '/' :: n ++ (if p ≠ [] ∧ p.take 1 ≠ ['/'] then '/' :: p else p)
        else p) ++ tailPart q f) :=
  urlunsplit_decomp _

theorem tailPart_good (q f : List Char) (hq : ∀ c ∈ q, notTabCrLf c = true)
    (hf : ∀ c ∈ f, notTabCrLf c = true) : ∀ c ∈ tailPart q f, notTabCrLf c = true := by
  intro c hc
  unfold tailPart at hc
  rcases List.mem_append.mp hc with hm | hm
  · by_cases hqe : q = []
    · rw [hqe] at hm; cases hm
    · rw [if_neg hqe] at hm
      rcases List.mem_cons.mp hm with he | hm2
      · rw [he]; decide
      · exact hq c hm2
  · by_cases hfe : f = []
    · rw [hfe] at hm; cases hm
    · rw [if_neg hfe] at hm
      rcases List.mem_cons.mp hm with he | hm2
      · rw [he]; decide
      · exact hf c hm2

theorem rest_shape (p q2 f : List Char) (hpshape : p = [] ∨ ∃ pr, p = '/' :: pr) :
    p ++ tailPart q2 f = [] ∨
    ∃ d r2, p ++ tailPart q2 f = d :: r2 ∧ netlocOk d = false := by
  rcases hpshape with he | ⟨pr, he⟩
  · rw [he, List.nil_append]
    rcases tailPart_shape q2 f with ht | ⟨r3, ht⟩ | ⟨r3, ht⟩
    · left; exact ht
    · right; exact ⟨'?', r3, ht, by decide⟩
    · right; exact ⟨'#', r3, ht, by decide⟩
  · right
    exact ⟨'/', pr ++ tailPart q2 f, by rw [he, List.cons_append], by decide⟩

theorem reparse_with_netloc (s n p q2 f : List Char)
    (hs : s = [] ∨ ∃ c cs, s = c :: cs ∧ isAsciiAlpha c = true ∧ ∀ x ∈ cs, isSchemeChar x = true)
    (hlow : lowerAscii s = s)
    (hn : ∀ c ∈ n, netlocOk c = true)
    (hnG : ∀ c ∈ n, notTabCrLf c = true)
    (hpshape : p = [] ∨ ∃ pr, p = '/' :: pr)
    (hpH : ∀ c ∈ p, notHash c = true) (hpQ : ∀ c ∈ p, notQuest c = true)
    (hpG : ∀ c ∈ p, notTabCrLf c = true)
    (hq2H : ∀ c ∈ q2, notHash c = true) (hq2G : ∀ c ∈ q2, notTabCrLf c = true)
    (hfG : ∀ c ∈ f, notTabCrLf c = true) :
    urlsplit ((if s = [] then [] else s ++ [':']) ++
      ('/' :: '/' :: (n ++ (p ++ tailPart q2 f)))) = ⟨s, n, p, q2, f⟩ := by
  have hnet := splitNetloc_out n (p ++ tailPart q2 f) hn (rest_shape p q2 f hpshape)
  have hfrag := splitFragment_tail p q2 f hpH hq2H
  have hquery := splitQuery_tail p q2 hpQ
  have hbodyG : ∀ c ∈ '/' :: '/' :: (n ++ (p ++ tailPart q2 f)), notTabCrLf c = true := by
    intro c hc
    rcases List.mem_cons.mp hc with he | hc2
    · rw [he]; decide
    rcases List.mem_cons.mp hc2 with he | hc3
    · rw [he]; decide
    rcases List.mem_append.mp hc3 with hm | hm
    · exact hnG c hm
    rcases List.mem_append.mp hm with hm2 | hm2
    · exact hpG c hm2
    · exact tailPart_good q2 f hq2G hfG c hm2
  rcases hs with hse | ⟨c, cs, hsc, hh, ht⟩
  · rw [hse]
    rw [if_pos rfl, List.nil_append]
    have hpre : preprocess ('/' :: '/' :: (n ++ (p ++ tailPart q2 f))) =
        '/' :: '/' :: (n ++ (p ++ tailPart q2 f)) :=
      preprocess_id _ (Or.inr ⟨'/', _, rfl, by decide⟩) hbodyG
    have hsch := @splitScheme_none_of_head '/' ('/' :: (n ++ (p ++ tailPart q2 f)))
      (by decide)
    exact urlsplit_eq_of_stages _ _ _ _ _ _ _ _ _ hpre hsch hnet hfrag hquery
  · rw [hsc]
    rw [if_neg (by simp)]
    have hshift : ((c :: cs) ++ [':']) ++ ('/' :: '/' :: (n ++ (p ++ tailPart q2 f))) =
        (c :: cs) ++ ':' :: ('/' :: '/' :: (n ++ (p ++ tailPart q2 f))) := by
      rw [List.append_assoc]
      rfl
    rw [hshift]
    have hsG : ∀ x ∈ (c :: cs) ++ ':' :: ('/' :: '/' :: (n ++ (p ++ tailPart q2 f))),
        notTabCrLf x = true := by
      intro x hx
      rcases List.mem_append.mp hx with hm | hm
      · rcases List.mem_cons.mp hm with he | hm2
        · rw [he]; exact (schemeChar_good (alpha_schemeChar hh)).2.1
        · exact (schemeChar_good (ht x hm2)).2.1
      · rcases List.mem_cons.mp hm with he | hm2
        · rw [he]; decide
        · exact hbodyG x hm2
    have hpre : preprocess ((c :: cs) ++ ':' :: ('/' :: '/' :: (n ++ (p ++ tailPart q2 f)))) =
        (c :: cs) ++ ':' :: ('/' :: '/' :: (n ++ (p ++ tailPart q2 f))) :=
      preprocess_id _ (Or.inr ⟨c, _, by rw [List.cons_append], alpha_not_c0 hh⟩) hsG
    have hsch := splitScheme_app ('/' :: '/' :: (n ++ (p ++ tailPart q2 f))) hh ht
    rw [show lowerAscii (c :: cs) = c :: cs from hsc ▸ hlow] at hsch
    exact urlsplit_eq_of_stages _ _ _ _ _ _ _ _ _ hpre hsch hnet hfrag hquery

theorem reparse_scheme_only (c : Char) (cs p q2 f : List Char)
    (hh : isAsciiAlpha c = true) (ht : ∀ x ∈ cs, isSchemeChar x = true)
    (hlow : lowerAscii (c :: cs) = c :: cs)
    (hp2 : p.take 2 ≠ ['/', '/'])
    (hpH : ∀ x ∈ p, notHash x = true) (hpQ : ∀ x ∈ p, notQuest x = true)
    (hpG : ∀ x ∈ p, notTabCrLf x = true)
    (hq2H : ∀ x ∈ q2, notHash x = true) (hq2G : ∀ x ∈ q2, notTabCrLf x = true)
    (hfG : ∀ x ∈ f, notTabCrLf x = true) :
    urlsplit ((c :: cs) ++ ':' :: (p ++ tailPart q2 f)) = ⟨c :: cs, [], p, q2, f⟩ := by
  have hnet : splitNetloc (p ++ tailPart q2 f) = ([], p ++ tailPart q2 f) :=
    splitNetloc_none _ (take2_ne_ss p q2 f hp2)
  have hfrag := splitFragment_tail p q2 f hpH hq2H
  have hquery := splitQuery_tail p q2 hpQ
  have hG : ∀ x ∈ (c :: cs) ++ ':' :: (p ++ tailPart q2 f), notTabCrLf x = true := by
    intro x hx
    rcases List.mem_append.mp hx with hm | hm
    · rcases List.mem_cons.mp hm with he | hm2
      · rw [he]; exact (schemeChar_good (alpha_schemeChar hh)).2.1
      · exact (schemeChar_good (ht x hm2)).2.1
    · rcases List.mem_cons.mp hm with he | hm2
      · rw [he]; decide
      rcases List.mem_append.mp hm2 with hm3 | hm3
      · exact hpG x hm3
      · exact tailPart_good q2 f hq2G hfG x hm3
  have hpre := preprocess_id ((c :: cs) ++ ':' :: (p ++ tailPart q2 f))
    (Or.inr ⟨c, _, by rw [List.cons_append], alpha_not_c0 hh⟩) hG
  have hsch := splitScheme_app (p ++ tailPart q2 f) hh ht
  rw [hlow] at hsch
  exact urlsplit_eq_of_stages _ _ _ _ _ _ _ _ _ hpre hsch hnet hfrag hquery

theorem reparse_plain (p q2 f : List Char)
    (hsch : splitScheme (p ++ tailPart q2 f) = ([], p ++ tailPart q2 f))
    (hp2 : p.take 2 ≠ ['/', '/'])
    (hhead : p = [] ∨ ∃ a pr, p = a :: pr ∧ isC0Space a = false)
    (hpH : ∀ x ∈ p, notHash x = true) (hpQ : ∀ x ∈ p, notQuest x = true)
    (hpG : ∀ x ∈ p, notTabCrLf x = true)
    (hq2H : ∀ x ∈ q2, notHash x = true) (hq2G : ∀ x ∈ q2, notTabCrLf x = true)
    (hfG : ∀ x ∈ f, notTabCrLf x = true) :
    urlsplit (p ++ tailPart q2 f) = ⟨[], [], p, q2, f⟩ := by
  have hnet : splitNetloc (p ++ tailPart q2 f) = ([], p ++ tailPart q2 f) :=
    splitNetloc_none _ (take2_ne_ss p q2 f hp2)
  have hfrag := splitFragment_tail p q2 f hpH hq2H
  have hquery := splitQuery_tail p q2 hpQ
  have hG : ∀ x ∈ p ++ tailPart q2 f, notTabCrLf x = true := by
    intro x hx
    rcases List.mem_append.mp hx with hm | hm
    · exact hpG x hm
    · exact tailPart_good q2 f hq2G hfG x hm
  have hshape : p ++ tailPart q2 f = [] ∨
      ∃ a r, p ++ tailPart q2 f = a :: r ∧ isC0Space a = false := by
    rcases hhead with he | ⟨a, pr, he, ha⟩
    · rw [he, List.nil_append]
      rcases tailPart_shape q2 f with ht | ⟨r3, ht⟩ | ⟨r3, ht⟩
      · left; exact ht
      · right; exact ⟨'?', r3, ht, by decide⟩
      · right; exact ⟨'#', r3, ht, by decide⟩
    · right
      exact ⟨a, pr ++ tailPart q2 f, by rw [he, List.cons_append], ha⟩
  have hpre := preprocess_id (p ++ tailPart q2 f) hshape hG
  exact urlsplit_eq_of_stages _ _ _ _ _ _ _ _ _ hpre hsch hnet hfrag hquery

theorem netlocOk_false_cases {d : Char} (h : netlocOk d = false) :
    d = '/' ∨ d = '?' ∨ d = '#' := by
  have h2 : (d == '/' || d == '?' || d == '#') = true := by
    revert h; unfold netlocOk; cases (d == '/' || d == '?' || d == '#') <;> simp
  rcases Bool.or_eq_true_iff.mp h2 with h3 | h3
  · rcases Bool.or_eq_true_iff.mp h3 with h4 | h4
    · exact Or.inl (beq_iff_eq.mp h4)
    · exact Or.inr (Or.inl (beq_iff_eq.mp h4))
  · exact Or.inr (Or.inr (beq_iff_eq.mp h3))

/-- Reassembly stability: replacing the query of a parsed URL by a new
hash-free query and reassembling with `urlunsplit` parses back to exactly the
same components, provided the parsed URL is not of the shape on which CPython
`urlunsplit` is lossy (empty netloc with a path starting in `//`, or a
netloc-using scheme with empty netloc and a relative non-slash path). -/
theorem reassemble_stable (url q2 : List Char)
    (hq2H : ∀ c ∈ q2, notHash c = true)
    (hq2G : ∀ c ∈ q2, notTabCrLf c = true)
    (hst : (urlsplit url).netloc ≠ [] ∨
      ((urlsplit url).path.take 2 ≠ ['/', '/'] ∧
        ((urlsplit url).scheme ≠ [] → (urlsplit url).scheme ∈ usesNetloc →
          ((urlsplit url).path = [] ∨ (urlsplit url).path.take 1 = ['/'])))) :
    urlsplit (urlunsplit ⟨(urlsplit url).scheme, (urlsplit url).netloc,
      (urlsplit url).path, q2, (urlsplit url).fragment⟩) =
    ⟨(urlsplit url).scheme, (urlsplit url).netloc, (urlsplit url).path, q2,
      (urlsplit url).fragment⟩ := by
  obtain ⟨u0, hu0⟩ : ∃ x, preprocess url = x := ⟨_, rfl⟩
  obtain ⟨s, u1, hsu⟩ : ∃ a b, splitScheme u0 = (a, b) := ⟨_, _, rfl⟩
  obtain ⟨n, u2, hnu⟩ : ∃ a b, splitNetloc u1 = (a, b) := ⟨_, _, rfl⟩
  obtain ⟨u3, f, hfu⟩ : ∃ a b, splitFragment u2 = (a, b) := ⟨_, _, rfl⟩
  obtain ⟨p, q, hqu⟩ : ∃ a b, splitQuery u3 = (a, b) := ⟨_, _, rfl⟩
  have hS : (urlsplit url).scheme = s := by
    show (splitScheme (preprocess url)).1 = s
    rw [hu0, hsu]
  have hN : (urlsplit url).netloc = n := by
    show (splitNetloc (splitScheme (preprocess url)).2).1 = n
    rw [hu0, hsu, hnu]
  have hP : (urlsplit url).path = p := by
    show (splitQuery (splitFragment (splitNetloc (splitScheme (preprocess url)).2).2).1).1 = p
    rw [hu0, hsu, hnu, hfu, hqu]
  have hF : (urlsplit url).fragment = f := by
    show (splitFragment (splitNetloc (splitScheme (preprocess url)).2).2).2 = f
    rw [hu0, hsu, hnu, hfu]
  rw [hS, hN, hP] at hst
  rw [hS, hN, hP, hF]
  -- goodness of the original input characters
  have hu0good : ∀ c ∈ u0, notTabCrLf c = true := by
    intro c hc
    rw [← hu0] at hc
    exact mem_preprocess_good hc
  have hu0shape : u0 = [] ∨ ∃ c r, u0 = c :: r ∧ isC0Space c = false := by
    rw [← hu0]
    exact preprocess_shape url
  -- projection equations of the later stages
  have hu3tw : u2.takeWhile notHash = u3 := congrArg Prod.fst hfu
  have hfdw : (u2.dropWhile notHash).tail = f := congrArg Prod.snd hfu
  have hptw : u3.takeWhile notQuest = p := congrArg Prod.fst hqu
  -- membership chains
  have hmem_u2_u0 : ∀ c ∈ u2, c ∈ u0 := by
    intro c hc
    have h1 : c ∈ (splitNetloc u1).2 := by rw [hnu]; exact hc
    have h2 : c ∈ u1 := mem_splitNetloc_snd h1
    have h3 : c ∈ (splitScheme u0).2 := by rw [hsu]; exact h2
    exact mem_splitScheme_snd h3
  have hmem_u3_u2 : ∀ c ∈ u3, c ∈ u2 := by
    intro c hc
    rw [← hu3tw] at hc
    exact mem_tw hc
  have hmem_p_u3 : ∀ c ∈ p, c ∈ u3 := by
    intro c hc
    rw [← hptw] at hc
    exact mem_tw hc
  have hpH : ∀ c ∈ p, notHash c = true := by
    intro c hc
    have h2 := hmem_p_u3 c hc
    rw [← hu3tw] at h2
    exact List.mem_takeWhile_imp h2
  have hpQ : ∀ c ∈ p, notQuest c = true := by
    intro c hc
    rw [← hptw] at hc
    exact List.mem_takeWhile_imp hc
  have hpG : ∀ c ∈ p, notTabCrLf c = true := fun c hc =>
    hu0good c (hmem_u2_u0 c (hmem_u3_u2 c (hmem_p_u3 c hc)))
  have hfG : ∀ c ∈ f, notTabCrLf c = true := by
    intro c hc
    have h1 : c ∈ (splitFragment u2).2 := by rw [hfu]; exact hc
    exact hu0good c (hmem_u2_u0 c (mem_splitFragment_snd h1))
  have hnOK : ∀ c ∈ n, netlocOk c = true := by
    intro c hc
    have h1 : c ∈ (splitNetloc u1).1 := by rw [hnu]; exact hc
    exact mem_splitNetloc_fst_ok h1
  have hnG : ∀ c ∈ n, notTabCrLf c = true := by
    intro c hc
    have h1 : c ∈ (splitNetloc u1).1 := by rw [hnu]; exact hc
    have h2 : c ∈ u1 := mem_splitNetloc_fst h1
    have h3 : c ∈ (splitScheme u0).2 := by rw [hsu]; exact h2
    exact hu0good c (mem_splitScheme_snd h3)
  -- scheme shape facts
  have hspec := splitScheme_spec u0
  rw [hsu] at hspec
  have hsOr : (s = [] ∧ u1 = u0) ∨
      (∃ c cs, s = c :: cs ∧ isAsciiAlpha c = true ∧ (∀ x ∈ cs, isSchemeChar x = true) ∧
        lowerAscii s = s) := by
    rcases hspec with ⟨h1, h2⟩ | ⟨c0, cs0, r0, hl, hal, hsc0, h1, h2⟩
    · exact Or.inl ⟨h1, h2⟩
    · right
      have h1b : s = lowerAscii (c0 :: cs0) := h1
      refine ⟨asciiLower c0, lowerAscii cs0, ?_, isAsciiAlpha_asciiLower hal, ?_, ?_⟩
      · rw [h1b, lowerAscii_cons]
      · intro x hx
        obtain ⟨y, hy, hxy⟩ := List.mem_map.mp hx
        rw [← hxy]
        exact isSchemeChar_asciiLower (hsc0 y hy)
      · rw [h1b]
        exact lowerAscii_idem _
  -- netloc branch facts
  have hnb : (u1.take 2 = ['/', '/'] ∧ (u1.drop 2).takeWhile netlocOk = n ∧
      (u1.drop 2).dropWhile netlocOk = u2) ∨
      (u1.take 2 ≠ ['/', '/'] ∧ n = [] ∧ u2 = u1) := by
    by_cases hnl : u1.take 2 = ['/', '/']
    · left
      unfold splitNetloc at hnu
      rw [if_pos hnl] at hnu
      have h1 := congrArg Prod.fst hnu
      have h2 := congrArg Prod.snd hnu
      exact ⟨hnl, h1, h2⟩
    · right
      unfold splitNetloc at hnu
      rw [if_neg hnl] at hnu
      have h1 := congrArg Prod.fst hnu
      have h2 := congrArg Prod.snd hnu
      exact ⟨hnl, h1.symm, h2.symm⟩
  have hp_of_u2 : (u2 = [] ∨ ∃ d r2, u2 = d :: r2 ∧ netlocOk d = false) →
      (p = [] ∨ ∃ pr, p = '/' :: pr) := by
    rintro (he | ⟨d, r2, he, hd⟩)
    · left
      rw [he] at hu3tw
      rw [← hptw, ← hu3tw]
      rfl
    · rcases netlocOk_false_cases hd with hd2 | hd2 | hd2
      · right
        rw [hd2] at he
        rw [he] at hu3tw
        rw [List.takeWhile_cons, if_pos (by decide)] at hu3tw
        rw [← hu3tw] at hptw
        rw [List.takeWhile_cons, if_pos (by decide)] at hptw
        exact ⟨_, hptw.symm⟩
      · left
        rw [hd2] at he
        rw [he] at hu3tw
        rw [List.takeWhile_cons, if_pos (by decide)] at hu3tw
        rw [← hu3tw] at hptw
        rw [List.takeWhile_cons, if_neg (by decide)] at hptw
        exact hptw.symm
      · left
        rw [hd2] at he
        rw [he] at hu3tw
        rw [List.takeWhile_cons, if_neg (by decide)] at hu3tw
        rw [← hu3tw] at hptw
        rw [List.takeWhile_nil] at hptw
        exact hptw.symm
  have hu2shape_taken : (u1.drop 2).dropWhile netlocOk = u2 →
      (u2 = [] ∨ ∃ d r2, u2 = d :: r2 ∧ netlocOk d = false) := by
    intro hdrop
    cases hu2c : u2 with
    | nil => exact Or.inl rfl
    | cons d r2 =>
      right
      refine ⟨d, r2, rfl, ?_⟩
      rw [hu2c] at hdrop
      exact dw_head_false hdrop
  -- the main case split: which branch does urlunsplit take
  by_cases hcond : n ≠ [] ∨ (s ≠ [] ∧ s ∈ usesNetloc ∧ p.take 2 ≠ ['/', '/'])
  · -- the // prefix is emitted
    have hins : p = [] ∨ ∃ pr, p = '/' :: pr := by
      by_cases hne : n = []
      · rcases hcond with hcontra | ⟨hsne, hsuses, hp2⟩
        · exact absurd hne hcontra
        rcases hst with hcontra | ⟨hp2b, himp⟩
        · exact absurd hne hcontra
        rcases himp hsne hsuses with he | htake
        · exact Or.inl he
        · cases hp1 : p with
          | nil => exact Or.inl rfl
          | cons a t =>
            right
            rw [hp1] at htake
            have h2 : a = '/' := by simpa using htake
            exact ⟨t, by rw [h2]⟩
      · rcases hnb with ⟨hnl, hn_eq, hu2_eq⟩ | ⟨hnl, hne2, hu2_eq⟩
        · exact hp_of_u2 (hu2shape_taken hu2_eq)
        · exact absurd hne2 hne
    have hinsne : ¬(p ≠ [] ∧ p.take 1 ≠ ['/']) := by
      rcases hins with he | ⟨pr, he⟩ <;> simp [he]
    have hout : urlunsplit ⟨s, n, p, q2, f⟩ =
        (if s = [] then [] else s ++ [':']) ++
        ('/' :: '/' :: (n ++ (p ++ tailPart q2 f))) := by
      rw [urlunsplit_decomp5, if_pos hcond, if_neg hinsne]
      simp [List.append_assoc]
    rw [hout]
    have hsOr2 : s = [] ∨ ∃ c cs, s = c :: cs ∧ isAsciiAlpha c = true ∧
        ∀ x ∈ cs, isSchemeChar x = true := by
      rcases hsOr with ⟨h1, _⟩ | ⟨c, cs, h1, h2, h3, _⟩
      · exact Or.inl h1
      · exact Or.inr ⟨c, cs, h1, h2, h3⟩
    have hlow : lowerAscii s = s := by
      rcases hsOr with ⟨h1, _⟩ | ⟨c, cs, _, _, _, h4⟩
      · rw [h1]; rfl
      · exact h4
    exact reparse_with_netloc s n p q2 f hsOr2 hlow hnOK hnG hins hpH hpQ hpG hq2H hq2G hfG
  · -- no // prefix
    have hne : n = [] := by
      by_contra hcontra
      exact hcond (Or.inl hcontra)
    have hp2 : p.take 2 ≠ ['/', '/'] := by
      rcases hst with hcontra | ⟨hp2, _⟩
      · exact absurd hne hcontra
      · exact hp2
    have hout : urlunsplit ⟨s, n, p, q2, f⟩ =
        (if s = [] then [] else s ++ [':']) ++ (p ++ tailPart q2 f) := by
      rw [urlunsplit_decomp5, if_neg hcond]
    rw [hout]
    rcases hsOr with ⟨hs_nil, hu1_eq⟩ | ⟨c, cs, hsc, hh, htail, hlow⟩
    · -- no scheme either: the output is p ++ tailPart
      rw [hs_nil, if_pos rfl, List.nil_append]
      rw [hne]
      have hfail : splitScheme u0 = ([], u0) := by
        rw [hsu, hs_nil, hu1_eq]
      -- show the reparse finds no scheme
      have hsch : splitScheme (p ++ tailPart q2 f) = ([], p ++ tailPart q2 f) := by
        rcases hnb with ⟨hnl, hn_eq, hu2_eq⟩ | ⟨hnl, _, hu2_eq⟩
        · -- the original took the netloc branch: the path is empty or starts with /
          rcases hp_of_u2 (hu2shape_taken hu2_eq) with he | ⟨pr, he⟩
          · rw [he, List.nil_append]
            rcases tailPart_shape q2 f with ht | ⟨r3, ht⟩ | ⟨r3, ht⟩ <;> rw [ht]
            · rfl
            · exact splitScheme_none_of_head r3 (by decide)
            · exact splitScheme_none_of_head r3 (by decide)
          · rw [he, List.cons_append]
            exact splitScheme_none_of_head _ (by decide)
        · -- the original did not take the netloc branch: p is a prefix of u0
          have hu2_u0 : u2 = u0 := by rw [hu2_eq, hu1_eq]
          have hp_pre : ∃ r, p ++ r = u0 := by
            obtain ⟨ra, hra⟩ := tw_decomp notQuest u3
            obtain ⟨rb, hrb⟩ := tw_decomp notHash u2
            rw [hptw] at hra
            rw [hu3tw] at hrb
            refine ⟨ra ++ rb, ?_⟩
            rw [← hu2_u0, ← hrb, ← hra, List.append_assoc]
          by_cases hcolp : ∃ x ∈ p, notColon x = false
          · exact splitScheme_none_app p (tailPart q2 f) hp_pre hcolp hfail
          · have hallcol : ∀ x ∈ p, notColon x = true := by
              intro x hx
              by_contra hxf
              exact hcolp ⟨x, hx, by revert hxf; cases notColon x <;> simp⟩
            cases hp1 : p with
            | nil =>
              rw [List.nil_append]
              rcases tailPart_shape q2 f with ht | ⟨r3, ht⟩ | ⟨r3, ht⟩ <;> rw [ht]
              · rfl
              · exact splitScheme_none_of_head r3 (by decide)
              · exact splitScheme_none_of_head r3 (by decide)
            | cons a pt =>
              rw [← hp1]
              rcases tailPart_shape q2 f with ht | ⟨r3, ht⟩ | ⟨r3, ht⟩ <;> rw [ht]
              · rw [List.append_nil]
                exact splitScheme_none_of_no_colon p hallcol
              · exact splitScheme_none_of_bad_tail p r3 hallcol (by rw [hp1]; simp)
                  (by decide) (by decide)
              · exact splitScheme_none_of_bad_tail p r3 hallcol (by rw [hp1]; simp)
                  (by decide) (by decide)
      have hhead : p = [] ∨ ∃ a pr, p = a :: pr ∧ isC0Space a = false := by
        rcases hnb with ⟨hnl, hn_eq, hu2_eq⟩ | ⟨hnl, _, hu2_eq⟩
        · rcases hp_of_u2 (hu2shape_taken hu2_eq) with he | ⟨pr, he⟩
          · exact Or.inl he
          · exact Or.inr ⟨'/', pr, he, by decide⟩
        · cases hp1 : p with
          | nil => exact Or.inl rfl
          | cons a pt =>
            right
            have hu2_u0 : u2 = u0 := by rw [hu2_eq, hu1_eq]
            obtain ⟨ra, hra⟩ := tw_decomp notQuest u3
            obtain ⟨rb, hrb⟩ := tw_decomp notHash u2
            rw [hptw] at hra
            rw [hu3tw] at hrb
            have hu0p : u0 = a :: (pt ++ (ra ++ rb)) := by
              rw [← hu2_u0, ← hrb, ← hra, hp1]
              simp [List.append_assoc]
            rcases hu0shape with he0 | ⟨c0, r0, he0, hc0⟩
            · rw [he0] at hu0p; cases hu0p
            · rw [he0] at hu0p
              have ha := (List.cons.inj hu0p).1
              exact ⟨a, pt, rfl, by rw [← ha]; exact hc0⟩
      exact reparse_plain p q2 f hsch hp2 hhead hpH hpQ hpG hq2H hq2G hfG
    · -- scheme present, no netloc
      rw [hsc, if_neg (by simp), hne]
      have hshift : ((c :: cs) ++ [':']) ++ (p ++ tailPart q2 f) =
          (c :: cs) ++ ':' :: (p ++ tailPart q2 f) := by
        rw [List.append_assoc]
        rfl
      rw [hshift]
      have hlow2 : lowerAscii (c :: cs) = c :: cs := by rw [← hsc]; exact hsc ▸ hlow
      exact reparse_scheme_only c cs p q2 f hh htail hlow2 hp2 hpH hpQ hpG hq2H hq2G hfG

/-! ### Support for the trimming claims -/

theorem no_occ_nil : ∀ s t : List Char, s ++ altmanifest ++ t ≠ [] := by
  intro s t he
  have hlen := congrArg List.length he
  simp [altmanifest] at hlen

theorem no_occ_in_take {lq : List Char} {pos m : Nat} {w : List Char}
    (hf : findSub altmanifest lq = some pos)
    (hm : m < pos)
    (hw : ∃ y, w ++ y = lq.take m) :
    ∀ s t, s ++ altmanifest ++ t ≠ w := by
  intro s t he
  obtain ⟨y, hy⟩ := hw
  have hocc : ∃ t2, altmanifest ++ t2 = lq.drop s.length := by
    refine ⟨t ++ (y ++ lq.drop m), ?_⟩
    have h1 : ((s ++ altmanifest ++ t) ++ y) ++ lq.drop m = lq := by
      rw [he, hy, List.take_append_drop]
    have hwhole : s ++ (altmanifest ++ (t ++ (y ++ lq.drop m))) = lq := by
      calc s ++ (altmanifest ++ (t ++ (y ++ lq.drop m)))
          = s ++ altmanifest ++ t ++ y ++ lq.drop m := by simp [List.append_assoc]
        _ = lq := h1
    have h2 : lq.drop s.length = altmanifest ++ (t ++ (y ++ lq.drop m)) := by
      conv_lhs => rw [← hwhole]
      rw [List.drop_left]
    exact h2.symm
  have hslt : s.length < pos := by
    have h1 : s.length ≤ w.length := by
      rw [← he, List.length_append, List.length_append]
      omega
    have h2 : w.length ≤ m := by
      have h3 := congrArg List.length hy
      rw [List.length_append, List.length_take] at h3
      omega
    omega
  exact findSub_min hf s.length hslt hocc

theorem mem_rstrip_take {q : List Char} {amp : Nat} {c : Char}
    (h : c ∈ rstripAmp (q.take amp)) : c ∈ q := by
  obtain ⟨k, hk⟩ := rstripAmp_decomp (q.take amp)
  have h2 : c ∈ q.take amp := by
    rw [← hk]
    exact List.mem_append_left _ h
  exact (List.take_sublist amp q).mem h2

theorem urlsplit_query_notHash (url : List Char) :
    ∀ c ∈ (urlsplit url).query, notHash c = true := by
  intro c hc
  have h1 : c ∈ (splitFragment (splitNetloc (splitScheme (preprocess url)).2).2).1 :=
    mem_splitQuery_snd hc
  exact List.mem_takeWhile_imp h1

theorem urlsplit_query_good (url : List Char) :
    ∀ c ∈ (urlsplit url).query, notTabCrLf c = true := by
  intro c hc
  have h1 : c ∈ (splitFragment (splitNetloc (splitScheme (preprocess url)).2).2).1 :=
    mem_splitQuery_snd hc
  have h2 := mem_splitFragment_fst h1
  have h3 := mem_splitNetloc_snd h2
  have h4 := mem_splitScheme_snd h3
  exact mem_preprocess_good h4

theorem lowerAscii_append (a b : List Char) :
    lowerAscii (a ++ b) = lowerAscii a ++ lowerAscii b := by
  unfold lowerAscii
  exact List.map_append asciiLower a b

/-- Claim C1, amended.  For every URL whose query contains the
case-insensitive substring `altmanifest` and whose parse is
reassembly-stable (non-empty netloc, or: path not beginning `//` and, for a
netloc-using scheme, an empty or absolute path — outside this set CPython
`urlunsplit` itself alters the components, see `claim_C1_counterexample`),
`trim_after_altmanifest` returns a URL whose query contains no occurrence of
the parameter, preserves scheme, host, path and fragment, and keeps exactly
the non-empty query parameters before the `&` boundary preceding the first
match, dropping the query entirely when no `&` precedes the match. -/
theorem claim_C1_trim_removes_param (url : List Char)
    (hocc : ∃ s t, s ++ altmanifest ++ t = lowerAscii (urlsplit url).query)
    (hstable : (urlsplit url).netloc ≠ [] ∨
      ((urlsplit url).path.take 2 ≠ ['/', '/'] ∧
        ((urlsplit url).scheme ≠ [] → (urlsplit url).scheme ∈ usesNetloc →
          ((urlsplit url).path = [] ∨ (urlsplit url).path.take 1 = ['/'])))) :
    (∀ s t, s ++ altmanifest ++ t ≠
      lowerAscii (urlsplit (trim_after_altmanifest url)).query) ∧
    (urlsplit (trim_after_altmanifest url)).scheme = (urlsplit url).scheme ∧
    (urlsplit (trim_after_altmanifest url)).netloc = (urlsplit url).netloc ∧
    (urlsplit (trim_after_altmanifest url)).path = (urlsplit url).path ∧
    (urlsplit (trim_after_altmanifest url)).fragment = (urlsplit url).fragment ∧
    ∃ pos, findSub altmanifest (lowerAscii (urlsplit url).query) = some pos ∧
      ((rfindAmp ((urlsplit url).query.take pos) = none ∧
        (urlsplit (trim_after_altmanifest url)).query = []) ∨
       (∃ amp, rfindAmp ((urlsplit url).query.take pos) = some amp ∧
        queryParams (urlsplit (trim_after_altmanifest url)).query =
          queryParams ((urlsplit url).query.take amp))) := by
  have hqne : (urlsplit url).query ≠ [] := by
    intro he
    obtain ⟨s, t, hst⟩ := hocc
    rw [he] at hst
    exact no_occ_nil s t hst
  obtain ⟨pos, hfind⟩ :
      ∃ i, findSub altmanifest (lowerAscii (urlsplit url).query) = some i := by
    cases hf : findSub altmanifest (lowerAscii (urlsplit url).query) with
    | none =>
      obtain ⟨s, t, hst⟩ := hocc
      exact absurd hst (findSub_none_no_occ hf s t)
    | some i => exact ⟨i, rfl⟩
  cases hamp : rfindAmp ((urlsplit url).query.take pos) with
  | none =>
    have htrim : trim_after_altmanifest url =
        urlunsplit ⟨(urlsplit url).scheme, (urlsplit url).netloc, (urlsplit url).path,
          [], (urlsplit url).fragment⟩ := by
      simp [trim_after_altmanifest, hqne, hfind, hamp]
    have hround := reassemble_stable url []
      (by intro c hc; cases hc) (by intro c hc; cases hc) hstable
    rw [htrim, hround]
    exact ⟨fun s t he => no_occ_nil s t he, rfl, rfl, rfl, rfl, pos, hfind,
      Or.inl ⟨hamp, rfl⟩⟩
  | some amp =>
    have hamplt : amp < pos := by
      have h1 := rfindAmp_lt hamp
      rw [List.length_take] at h1
      omega
    have hmemq : ∀ c ∈ rstripAmp ((urlsplit url).query.take amp),
        c ∈ (urlsplit url).query := fun c hc => mem_rstrip_take hc
    have hH : ∀ c ∈ rstripAmp ((urlsplit url).query.take amp), notHash c = true :=
      fun c hc => urlsplit_query_notHash url c (hmemq c hc)
    have hG : ∀ c ∈ rstripAmp ((urlsplit url).query.take amp), notTabCrLf c = true :=
      fun c hc => urlsplit_query_good url c (hmemq c hc)
    have htrim : trim_after_altmanifest url =
        urlunsplit ⟨(urlsplit url).scheme, (urlsplit url).netloc, (urlsplit url).path,
          rstripAmp ((urlsplit url).query.take amp), (urlsplit url).fragment⟩ := by
      simp [trim_after_altmanifest, hqne, hfind, hamp]
    have hround := reassemble_stable url (rstripAmp ((urlsplit url).query.take amp))
      hH hG hstable
    rw [htrim, hround]
    refine ⟨?_, rfl, rfl, rfl, rfl, pos, hfind, Or.inr ⟨amp, hamp, ?_⟩⟩
    · obtain ⟨k, hk⟩ := rstripAmp_decomp ((urlsplit url).query.take amp)
      refine no_occ_in_take hfind hamplt ⟨lowerAscii (List.replicate k '&'), ?_⟩
      rw [← lowerAscii_append, hk, lowerAscii_take]
    · exact queryParams_rstripAmp _

/-- Counterexample to claim C1 as stated: the URL `https:x?altmanifest=1`
contains the parameter, yet trimming does not preserve the path — CPython
`urlunsplit` turns the relative path `x` of a netloc-using scheme into `/x`
(the script returns `https:///x`). -/
theorem claim_C1_counterexample :
    (∃ s t, s ++ altmanifest ++ t =
      lowerAscii (urlsplit ("https:x?altmanifest=1".data)).query) ∧
    (urlsplit (trim_after_altmanifest ("https:x?altmanifest=1".data))).path ≠
      (urlsplit ("https:x?altmanifest=1".data)).path := by
  constructor
  · exact ⟨[], "=1".data, by decide⟩
  · decide

/-- Witness for claim C1 at the URL
`https://ex.com/a/b?x=1&AltManifest=zz#frag`. -/
theorem claim_C1_witness :
    ((∃ s t, s ++ altmanifest ++ t =
        lowerAscii (urlsplit ("https://ex.com/a/b?x=1&AltManifest=zz#frag".data)).query) ∧
      (urlsplit ("https://ex.com/a/b?x=1&AltManifest=zz#frag".data)).netloc ≠ []) ∧
    (∀ s t, s ++ altmanifest ++ t ≠ lowerAscii
      (urlsplit (trim_after_altmanifest
        ("https://ex.com/a/b?x=1&AltManifest=zz#frag".data))).query) ∧
    (urlsplit (trim_after_altmanifest ("https://ex.com/a/b?x=1&AltManifest=zz#frag".data))).scheme =
      (urlsplit ("https://ex.com/a/b?x=1&AltManifest=zz#frag".data)).scheme ∧
    (urlsplit (trim_after_altmanifest ("https://ex.com/a/b?x=1&AltManifest=zz#frag".data))).netloc =
      (urlsplit ("https://ex.com/a/b?x=1&AltManifest=zz#frag".data)).netloc ∧
    (urlsplit (trim_after_altmanifest ("https://ex.com/a/b?x=1&AltManifest=zz#frag".data))).path =
      (urlsplit ("https://ex.com/a/b?x=1&AltManifest=zz#frag".data)).path ∧
    (urlsplit (trim_after_altmanifest ("https://ex.com/a/b?x=1&AltManifest=zz#frag".data))).fragment =
      (urlsplit ("https://ex.com/a/b?x=1&AltManifest=zz#frag".data)).fragment ∧
    ∃ pos, findSub altmanifest
        (lowerAscii (urlsplit ("https://ex.com/a/b?x=1&AltManifest=zz#frag".data)).query) =
        some pos ∧
      ((rfindAmp ((urlsplit ("https://ex.com/a/b?x=1&AltManifest=zz#frag".data)).query.take pos) =
          none ∧
        (urlsplit (trim_after_altmanifest
          ("https://ex.com/a/b?x=1&AltManifest=zz#frag".data))).query = []) ∨
       (∃ amp, rfindAmp
          ((urlsplit ("https://ex.com/a/b?x=1&AltManifest=zz#frag".data)).query.take pos) =
          some amp ∧
        queryParams (urlsplit (trim_after_altmanifest
          ("https://ex.com/a/b?x=1&AltManifest=zz#frag".data))).query =
          queryParams
            ((urlsplit ("https://ex.com/a/b?x=1&AltManifest=zz#frag".data)).query.take amp))) :=
  ⟨⟨⟨"x=1&".data, "=zz".data, by decide⟩, by decide⟩,
    claim_C1_trim_removes_param ("https://ex.com/a/b?x=1&AltManifest=zz#frag".data)
      ⟨"x=1&".data, "=zz".data, by decide⟩ (Or.inl (by decide))⟩

/-- Claim C2: for every URL whose query does not contain the case-insensitive
substring `altmanifest` (in particular when the query is empty),
`trim_after_altmanifest` returns the input unchanged. -/
theorem claim_C2_no_param_identity (url : List Char)
    (h : ∀ s t, s ++ altmanifest ++ t ≠ lowerAscii (urlsplit url).query) :
    trim_after_altmanifest url = url := by
  by_cases hq : (urlsplit url).query = []
  · simp [trim_after_altmanifest, hq]
  · have hfind : findSub altmanifest (lowerAscii (urlsplit url).query) = none := by
      cases hf : findSub altmanifest (lowerAscii (urlsplit url).query) with
      | none => rfl
      | some i =>
        obtain ⟨t, ht⟩ := findSub_occ hf
        have hocc2 : ((lowerAscii (urlsplit url).query).take i) ++ altmanifest ++ t =
            lowerAscii (urlsplit url).query := by
          rw [List.append_assoc, ht, List.take_append_drop]
        exact absurd hocc2 (h _ t)
    simp [trim_after_altmanifest, hq, hfind]

/-- Witness for claim C2 at the URL `https://ex.com/a?x=1`. -/
theorem claim_C2_witness :
    (∀ s t, s ++ altmanifest ++ t ≠
      lowerAscii (urlsplit ("https://ex.com/a?x=1".data)).query) ∧
    trim_after_altmanifest ("https://ex.com/a?x=1".data) = "https://ex.com/a?x=1".data :=
  ⟨findSub_none_no_occ (by decide),
    claim_C2_no_param_identity ("https://ex.com/a?x=1".data)
      (findSub_none_no_occ (by decide))⟩

/-! ### Claims about device resolution and model selection -/

/-- Counterexample to claim C3 as stated: when the library call succeeds and
reports CUDA unavailable while `nvidia-smi` is on the PATH (so the executable
check would confirm availability), the claim demands `cuda`, but
`resolve_device` returns `cpu` without consulting `nvidia-smi`. -/
theorem claim_C3_counterexample :
    resolve_device ("cuda".data) (TorchProbe.ok false) true ≠ "cuda".data := by
  decide

/-- Claim C3, amended: for a requested `cuda` device, `resolve_device` returns
`cuda` when the library call reports availability, returns `cpu` without any
executable check when the library call succeeds and reports unavailability,
and falls back to the `nvidia-smi` check only when the library call raises,
returning `cuda` if the executable is present and `cpu` otherwise; any
non-`cuda` request resolves to `cpu`. -/
theorem claim_C3_resolve_device (torch : TorchProbe) (smi : Bool) :
    resolve_device ("cuda".data) torch smi =
      (match torch with
       | .ok true => "cuda".data
       | .ok false => "cpu".data
       | .exc => if smi then "cuda".data else "cpu".data) ∧
    (∀ d : List Char, d ≠ "cuda".data → resolve_device d torch smi = "cpu".data) := by
  constructor
  · cases torch with
    | ok b => cases b <;> rfl
    | exc => rfl
  · intro d hd
    unfold resolve_device
    rw [if_neg hd]

/-- Witness for claim C3 at the probes of the amended statement. -/
theorem claim_C3_witness :
    resolve_device ("cuda".data) TorchProbe.exc true = "cuda".data ∧
    ("tpu".data ≠ "cuda".data ∧ resolve_device ("tpu".data) TorchProbe.exc true = "cpu".data) := by
  refine ⟨(claim_C3_resolve_device TorchProbe.exc true).1, by decide, ?_⟩
  exact (claim_C3_resolve_device TorchProbe.exc true).2 ("tpu".data) (by decide)

/-- Claim C4: in every interactive session that reaches model selection, the
selected model is the multilingual `medium` exactly when the chosen language
(stripped, lowercased, defaulting to `en`) differs from `en` — the value
`auto` included — and stays the English-only `medium.en` when the language is
`en`. -/
theorem claim_C4_model_selection (dirIn urlIn langIn devIn : Option (List Char))
    (cfg : Config)
    (h : prompt_all_inputs dirIn urlIn langIn devIn = .ok cfg) :
    (cfg.model = "medium".data ↔ cfg.language ≠ "en".data) ∧
    (cfg.language = "auto".data → cfg.model = "medium".data) ∧
    (cfg.language = "en".data → cfg.model = "medium.en".data) := by
  simp only [prompt_all_inputs] at h
  by_cases hu : pyStrip (urlIn.getD []) = []
  · rw [if_pos hu] at h
    cases h
  · rw [if_neg hu] at h
    injection h with h2
    subst h2
    simp only
    generalize lowerAscii (if pyStrip (langIn.getD []) = [] then "en".data
      else pyStrip (langIn.getD [])) = lang
    by_cases hl : lang = "en".data
    · subst hl
      decide
    · rw [if_pos ⟨Or.inl hl, by decide⟩]
      refine ⟨⟨fun _ => hl, fun _ => by decide⟩, fun _ => by decide, fun he => absurd he hl⟩

/-- Witness for claim C4 at the inputs (language `it`, then language `en`). -/
theorem claim_C4_witness :
    (prompt_all_inputs none (some ("u".data)) (some ("it".data)) none =
      .ok ⟨"transcripts".data, "u".data, "it".data, "cuda".data, "medium".data⟩ ∧
     ("it".data ≠ "en".data) ∧
     ((⟨"transcripts".data, "u".data, "it".data, "cuda".data, "medium".data⟩ : Config).model =
        "medium".data ↔
      (⟨"transcripts".data, "u".data, "it".data, "cuda".data, "medium".data⟩ : Config).language ≠
        "en".data)) ∧
    (prompt_all_inputs none (some ("u".data)) none none =
      .ok ⟨"transcripts".data, "u".data, "en".data, "cuda".data, "medium.en".data⟩ ∧
     (⟨"transcripts".data, "u".data, "en".data, "cuda".data, "medium.en".data⟩ : Config).model =
       "medium.en".data) := by
  refine ⟨⟨rfl, by decide, ?_⟩, rfl, ?_⟩
  · exact (claim_C4_model_selection none (some ("u".data)) (some ("it".data)) none _ rfl).1
  · exact (claim_C4_model_selection none (some ("u".data)) none none _ rfl).2.2 (by decide)

/-! ### Claims about the subprocess pipeline -/

/-- Claim C5: in a session that reaches transcription, the whisper command is
first run with `--verbose False` appended; when that child exits non-zero the
command is retried exactly once with the identical argument list minus the
verbose flags, and when the retry also exits non-zero the program terminates
with the retry child's exit code as its own exit status. -/
theorem claim_C5_whisper_retry (env : Env) (cfg : Config)
    (hok : prompt_all_inputs env.dirInput env.urlInput env.langInput env.devInput = .ok cfg)
    (hmode : pyStrip (env.modeInput.getD []) ≠ "1".data)
    (hff : env.ffmpegOnPath = true) (hwh : env.whisperOnPath = true)
    (hdl : env.ffmpegExit = 0)
    (hv : env.whisperVerboseExit ≠ 0) (hp : env.whisperPlainExit ≠ 0) :
    mainRun env =
      ([Event.runProc (ffmpegArgs (trim_after_altmanifest cfg.url)
          (pathJoin cfg.outdirRaw ("video.mp4".data))),
        Event.runProc (whisperArgs (pathJoin cfg.outdirRaw ("video.mp4".data)) cfg.outdirRaw
          cfg.model cfg.language (resolve_device cfg.device env.torch env.nvidiaSmi) ++
          verboseFlags),
        Event.runProc (whisperArgs (pathJoin cfg.outdirRaw ("video.mp4".data)) cfg.outdirRaw
          cfg.model cfg.language (resolve_device cfg.device env.torch env.nvidiaSmi))],
       Outcome.exited env.whisperPlainExit) ∧
    exitStatus (mainRun env).2 = env.whisperPlainExit := by
  have hmode2 : prompt_mode env.modeInput = "transcribe".data := by
    unfold prompt_mode
    rw [if_neg hmode]
  have hnd : ¬("transcribe".data = "download".data) := by decide
  have h1 : mainRun env =
      ([Event.runProc (ffmpegArgs (trim_after_altmanifest cfg.url)
          (pathJoin cfg.outdirRaw ("video.mp4".data))),
        Event.runProc (whisperArgs (pathJoin cfg.outdirRaw ("video.mp4".data)) cfg.outdirRaw
          cfg.model cfg.language (resolve_device cfg.device env.torch env.nvidiaSmi) ++
          verboseFlags),
        Event.runProc (whisperArgs (pathJoin cfg.outdirRaw ("video.mp4".data)) cfg.outdirRaw
          cfg.model cfg.language (resolve_device cfg.device env.torch env.nvidiaSmi))],
       Outcome.exited env.whisperPlainExit) := by
    simp [mainRun, run_whisper, hff, hwh, hok, hmode2, hdl, hv, hp, hnd]
  refine ⟨h1, ?_⟩
  rw [h1]
  rfl

/-- Witness for claim C5 at a concrete environment in which both whisper
attempts fail (the retry with exit code 7). -/
theorem claim_C5_witness :
    ((⟨true, true, none, none, some ("http://h/v".data), none, none, TorchProbe.ok true,
        true, 0, 1, 7⟩ : Env).whisperVerboseExit ≠ 0) ∧
    ((⟨true, true, none, none, some ("http://h/v".data), none, none, TorchProbe.ok true,
        true, 0, 1, 7⟩ : Env).whisperPlainExit ≠ 0) ∧
    exitStatus (mainRun ⟨true, true, none, none, some ("http://h/v".data), none, none,
      TorchProbe.ok true, true, 0, 1, 7⟩).2 = 7 := by
  refine ⟨by decide, by decide, ?_⟩
  have h := (claim_C5_whisper_retry
    ⟨true, true, none, none, some ("http://h/v".data), none, none, TorchProbe.ok true,
      true, 0, 1, 7⟩
    ⟨"transcripts".data, "http://h/v".data, "en".data, "cuda".data, "medium.en".data⟩
    rfl (by decide) rfl rfl rfl (by decide) (by decide)).2
  exact h

/-- Counterexample to claim C6 as stated: with a download child failing with
exit code 8, the `CalledProcessError` escapes `main` uncaught and the
interpreter terminates with status 1, not with the child's exit code 8. -/
theorem claim_C6_counterexample :
    (mainRun ⟨true, true, none, none, some ("http://h/v".data), none, none,
      TorchProbe.ok true, true, 8, 0, 0⟩).2 = Outcome.uncaught 8 ∧
    exitStatus (mainRun ⟨true, true, none, none, some ("http://h/v".data), none, none,
      TorchProbe.ok true, true, 8, 0, 0⟩).2 = 1 ∧
    exitStatus (mainRun ⟨true, true, none, none, some ("http://h/v".data), none, none,
      TorchProbe.ok true, true, 8, 0, 0⟩).2 ≠ 8 := by
  refine ⟨?_, ?_, ?_⟩ <;> decide

/-- Claim C6, amended: when the download child exits non-zero the run fails
fatally — the trace contains only the single ffmpeg invocation, so no
transcription is attempted — but the failure escapes as an uncaught
`CalledProcessError`, so the program terminates with the interpreter status 1
rather than the child's exit code. -/
theorem claim_C6_download_failure (env : Env) (cfg : Config)
    (hok : prompt_all_inputs env.dirInput env.urlInput env.langInput env.devInput = .ok cfg)
    (hff : env.ffmpegOnPath = true) (hwh : env.whisperOnPath = true)
    (hdl : env.ffmpegExit ≠ 0) :
    mainRun env =
      ([Event.runProc (ffmpegArgs (trim_after_altmanifest cfg.url)
          (pathJoin cfg.outdirRaw ("video.mp4".data)))],
       Outcome.uncaught env.ffmpegExit) ∧
    exitStatus (mainRun env).2 = 1 := by
  have h1 : mainRun env =
      ([Event.runProc (ffmpegArgs (trim_after_altmanifest cfg.url)
          (pathJoin cfg.outdirRaw ("video.mp4".data)))],
       Outcome.uncaught env.ffmpegExit) := by
    simp [mainRun, hff, hwh, hok, hdl]
  refine ⟨h1, ?_⟩
  rw [h1]
  rfl

/-- Witness for claim C6 (amended) at a concrete environment whose download
child exits with code 8. -/
theorem claim_C6_witness :
    ((⟨true, true, none, none, some ("http://h/v".data), none, none, TorchProbe.ok true,
        true, 8, 0, 0⟩ : Env).ffmpegExit ≠ 0) ∧
    exitStatus (mainRun ⟨true, true, none, none, some ("http://h/v".data), none, none,
      TorchProbe.ok true, true, 8, 0, 0⟩).2 = 1 := by
  refine ⟨by decide, ?_⟩
  exact (claim_C6_download_failure
    ⟨true, true, none, none, some ("http://h/v".data), none, none, TorchProbe.ok true,
      true, 8, 0, 0⟩
    ⟨"transcripts".data, "http://h/v".data, "en".data, "cuda".data, "medium.en".data⟩
    rfl rfl rfl (by decide)).2

/-- Claim C9: when the URL prompt yields an empty string after stripping
(including on end-of-file), the program exits with code 1 and the trace is
empty — no download or transcription subprocess is ever run. -/
theorem claim_C9_empty_url_exit (env : Env)
    (hurl : pyStrip (env.urlInput.getD []) = []) :
    mainRun env = ([], Outcome.exited 1) ∧ exitStatus (mainRun env).2 = 1 := by
  have hpr : prompt_all_inputs env.dirInput env.urlInput env.langInput env.devInput =
      .error 1 := by
    simp [prompt_all_inputs, hurl]
  have h1 : mainRun env = ([], Outcome.exited 1) := by
    unfold mainRun
    cases hff : env.ffmpegOnPath
    · simp
    · cases hwh : env.whisperOnPath
      · simp
      · simp [hpr]
  refine ⟨h1, ?_⟩
  rw [h1]
  rfl

/-- Witness for claim C9 at a concrete environment whose URL prompt hits
end-of-file. -/
theorem claim_C9_witness :
    pyStrip ((⟨true, true, none, none, none, none, none, TorchProbe.ok true, true,
      0, 0, 0⟩ : Env).urlInput.getD []) = [] ∧
    mainRun ⟨true, true, none, none, none, none, none, TorchProbe.ok true, true,
      0, 0, 0⟩ = ([], Outcome.exited 1) := by
  refine ⟨rfl, ?_⟩
  exact (claim_C9_empty_url_exit
    ⟨true, true, none, none, none, none, none, TorchProbe.ok true, true, 0, 0, 0⟩ rfl).1

/-! ### Claims about output resolution and the prompts -/

theorem endsWithList_append (pat x : List Char) : endsWithList pat (x ++ pat) = true := by
  unfold endsWithList List.isSuffixOf
  apply isPrefixOf_iff_exists.mpr
  exact ⟨x.reverse, by rw [← List.reverse_append]⟩

/-- Claim C7: `pick_txt_output` returns `outdir/basename.txt` whenever that
name is listed; otherwise the newest `.txt` entry whose name starts with the
basename; otherwise the newest `.txt` entry of any name; and `none`
(non-fatally) when the directory holds no `.txt` at all.  Newest means maximal
modification time, ties resolved to the earliest listed entry as Python `max`
does. -/
theorem claim_C7_pick_txt (listing : List FileEntry) (outdir basename : List Char) :
    ((basename ++ ".txt".data) ∈ listing.map FileEntry.name →
      pick_txt_output listing outdir basename =
        some (pathJoin outdir (basename ++ ".txt".data))) ∧
    ((basename ++ ".txt".data) ∉ listing.map FileEntry.name →
      listing.filter (isTxtWithBase basename) ≠ [] →
      ∃ e ∈ listing, isTxtWithBase basename e = true ∧
        pick_txt_output listing outdir basename = some (pathJoin outdir e.name) ∧
        ∀ e2 ∈ listing, isTxtWithBase basename e2 = true → e2.mtime ≤ e.mtime) ∧
    ((basename ++ ".txt".data) ∉ listing.map FileEntry.name →
      listing.filter (isTxtWithBase basename) = [] →
      listing.filter isTxt ≠ [] →
      ∃ e ∈ listing, isTxt e = true ∧
        pick_txt_output listing outdir basename = some (pathJoin outdir e.name) ∧
        ∀ e2 ∈ listing, isTxt e2 = true → e2.mtime ≤ e.mtime) ∧
    ((∀ e ∈ listing, isTxt e = false) →
      pick_txt_output listing outdir basename = none) := by
  refine ⟨?_, ?_, ?_, ?_⟩
  · intro hmem
    have hc : (listing.map FileEntry.name).contains (basename ++ ".txt".data) = true :=
      List.elem_iff.mpr hmem
    simp only [pick_txt_output]
    rw [if_pos hc]
  · intro hmem hne
    have hc : ¬((listing.map FileEntry.name).contains (basename ++ ".txt".data) = true) := by
      intro hx
      exact hmem (List.elem_iff.mp hx)
    simp only [pick_txt_output]
    rw [if_neg hc, if_neg hne]
    cases hl : listing.filter (isTxtWithBase basename) with
    | nil => exact absurd hl hne
    | cons x xs =>
      have hm := pyMax_mem FileEntry.mtime x xs
      rw [← hl] at hm
      have hin := List.mem_filter.mp hm
      refine ⟨pyMax FileEntry.mtime x xs, hin.1, hin.2, rfl, ?_⟩
      intro e2 he2 hpred
      have he2f : e2 ∈ x :: xs := by
        rw [← hl]
        exact List.mem_filter.mpr ⟨he2, hpred⟩
      exact pyMax_ge FileEntry.mtime x xs e2 he2f
  · intro hmem hnil hne
    have hc : ¬((listing.map FileEntry.name).contains (basename ++ ".txt".data) = true) := by
      intro hx
      exact hmem (List.elem_iff.mp hx)
    simp only [pick_txt_output]
    rw [if_neg hc, if_pos hnil]
    cases hl : listing.filter isTxt with
    | nil => exact absurd hl hne
    | cons x xs =>
      have hm := pyMax_mem FileEntry.mtime x xs
      rw [← hl] at hm
      have hin := List.mem_filter.mp hm
      refine ⟨pyMax FileEntry.mtime x xs, hin.1, hin.2, rfl, ?_⟩
      intro e2 he2 hpred
      have he2f : e2 ∈ x :: xs := by
        rw [← hl]
        exact List.mem_filter.mpr ⟨he2, hpred⟩
      exact pyMax_ge FileEntry.mtime x xs e2 he2f
  · intro hall
    have hmem : (basename ++ ".txt".data) ∉ listing.map FileEntry.name := by
      intro hx
      obtain ⟨e, he, hname⟩ := List.mem_map.mp hx
      have htxt : isTxt e = true := by
        unfold isTxt
        rw [hname]
        exact endsWithList_append (".txt".data) basename
      rw [hall e he] at htxt
      cases htxt
    have hc : ¬((listing.map FileEntry.name).contains (basename ++ ".txt".data) = true) := by
      intro hx
      exact hmem (List.elem_iff.mp hx)
    have hf1 : listing.filter (isTxtWithBase basename) = [] := by
      apply List.filter_eq_nil_iff.mpr
      intro e he
      unfold isTxtWithBase
      have h2 : endsWithList (".txt".data) e.name = false := hall e he
      rw [h2]
      simp
    have hf2 : listing.filter isTxt = [] := by
      apply List.filter_eq_nil_iff.mpr
      intro e he
      rw [hall e he]
      simp
    simp only [pick_txt_output]
    rw [if_neg hc, if_pos hf1, hf2]

/-- Witness for claim C7, exercising all four branches on concrete listings
(basename `video`, names `video.txt`, `video-2.txt`, `b.txt`, no `.txt`). -/
theorem claim_C7_witness :
    (pick_txt_output [⟨"video.txt".data, 5⟩, ⟨"other.txt".data, 9⟩] ("o".data)
      ("video".data) = some (pathJoin ("o".data) ("video".data ++ ".txt".data))) ∧
    (∃ e ∈ [⟨"video-1.txt".data, 3⟩, ⟨"video-2.txt".data, 8⟩, ⟨"zzz.txt".data, 9⟩],
      isTxtWithBase ("video".data) e = true ∧
      pick_txt_output [⟨"video-1.txt".data, 3⟩, ⟨"video-2.txt".data, 8⟩,
        ⟨"zzz.txt".data, 9⟩] ("o".data) ("video".data) =
        some (pathJoin ("o".data) e.name) ∧
      ∀ e2 ∈ [⟨"video-1.txt".data, 3⟩, ⟨"video-2.txt".data, 8⟩, ⟨"zzz.txt".data, 9⟩],
        isTxtWithBase ("video".data) e2 = true → e2.mtime ≤ e.mtime) ∧
    (∃ e ∈ [⟨"a.txt".data, 1⟩, ⟨"b.txt".data, 4⟩], isTxt e = true ∧
      pick_txt_output [⟨"a.txt".data, 1⟩, ⟨"b.txt".data, 4⟩] ("o".data) ("video".data) =
        some (pathJoin ("o".data) e.name) ∧
      ∀ e2 ∈ [⟨"a.txt".data, 1⟩, ⟨"b.txt".data, 4⟩], isTxt e2 = true →
        e2.mtime ≤ e.mtime) ∧
    (pick_txt_output [⟨"a.mp4".data, 1⟩] ("o".data) ("video".data) = none) := by
  refine ⟨?_, ?_, ?_, ?_⟩
  · exact (claim_C7_pick_txt [⟨"video.txt".data, 5⟩, ⟨"other.txt".data, 9⟩] ("o".data)
      ("video".data)).1 (by decide)
  · exact (claim_C7_pick_txt [⟨"video-1.txt".data, 3⟩, ⟨"video-2.txt".data, 8⟩,
      ⟨"zzz.txt".data, 9⟩] ("o".data) ("video".data)).2.1 (by decide) (by decide)
  · exact (claim_C7_pick_txt [⟨"a.txt".data, 1⟩, ⟨"b.txt".data, 4⟩] ("o".data)
      ("video".data)).2.2.1 (by decide) (by decide) (by decide)
  · exact (claim_C7_pick_txt [⟨"a.mp4".data, 1⟩] ("o".data) ("video".data)).2.2.2
      (by decide)

/-- Claim C8: a device answer whose stripped, lowercased, defaulted value is
outside `{cuda, cpu}` falls back to the default `cuda`, and the configuration
collection still succeeds (the run continues non-fatally). -/
theorem claim_C8_device_fallback (dirIn urlIn langIn devIn : Option (List Char))
    (hurl : pyStrip (urlIn.getD []) ≠ [])
    (hdev : ¬(lowerAscii (if pyStrip (devIn.getD []) = [] then "cuda".data
        else pyStrip (devIn.getD [])) = "cuda".data ∨
      lowerAscii (if pyStrip (devIn.getD []) = [] then "cuda".data
        else pyStrip (devIn.getD [])) = "cpu".data)) :
    ∃ cfg, prompt_all_inputs dirIn urlIn langIn devIn = .ok cfg ∧
      cfg.device = "cuda".data := by
  simp only [prompt_all_inputs]
  rw [if_neg hurl, if_neg hdev]
  exact ⟨_, rfl, rfl⟩

/-- Witness for claim C8 at the device answer `tpu`. -/
theorem claim_C8_witness :
    pyStrip ((some ("u".data)).getD []) ≠ [] ∧
    ¬(lowerAscii (if pyStrip ((some ("tpu".data)).getD []) = [] then "cuda".data
        else pyStrip ((some ("tpu".data)).getD [])) = "cuda".data ∨
      lowerAscii (if pyStrip ((some ("tpu".data)).getD []) = [] then "cuda".data
        else pyStrip ((some ("tpu".data)).getD [])) = "cpu".data) ∧
    ∃ cfg, prompt_all_inputs none (some ("u".data)) none (some ("tpu".data)) = .ok cfg ∧
      cfg.device = "cuda".data := by
  refine ⟨by decide, by decide, ?_⟩
  exact claim_C8_device_fallback none (some ("u".data)) none (some ("tpu".data))
    (by decide) (by decide)

/-- Claim C10: `prompt_mode` selects Download Only exactly on the stripped
answer `1`; every other answer — empty, `2`, arbitrary text, or end-of-file —
selects Download + Transcribe. -/
theorem claim_C10_mode_selection (inp : Option (List Char)) :
    (pyStrip (inp.getD []) = "1".data → prompt_mode inp = "download".data) ∧
    (pyStrip (inp.getD []) ≠ "1".data → prompt_mode inp = "transcribe".data) := by
  constructor
  · intro h
    unfold prompt_mode
    rw [if_pos h]
  · intro h
    unfold prompt_mode
    rw [if_neg h]

/-- Witness for claim C10 at end-of-file, the answer `1` with spaces, and the
answer `2`. -/
theorem claim_C10_witness :
    (pyStrip ((none : Option (List Char)).getD []) ≠ "1".data ∧
      prompt_mode none = "transcribe".data) ∧
    (pyStrip ((some (" 1 ".data)).getD []) = "1".data ∧
      prompt_mode (some (" 1 ".data)) = "download".data) ∧
    (pyStrip ((some ("2".data)).getD []) ≠ "1".data ∧
      prompt_mode (some ("2".data)) = "transcribe".data) :=
  ⟨⟨by decide, (claim_C10_mode_selection none).2 (by decide)⟩,
    ⟨by decide, (claim_C10_mode_selection (some (" 1 ".data))).1 (by decide)⟩,
    ⟨by decide, (claim_C10_mode_selection (some ("2".data))).2 (by decide)⟩⟩
